import Mathlib

/-!
Verification of the document-ingestion and hybrid-retrieval engine of the
`repo-search` / `vector-search` components (files `src/repo-search/ingest.py`,
`src/repo-search/query.py`, `src/vector-search/ingest.py`).

Python text is modelled as `List Char`.  Pure helpers of the source
(`_get_heading_chain`, `chunk_text`, `load_hash_cache`, RRF fusion in
`hybrid_search`, `keyword_search`, the per-file loop of `ingest`) are
translated function by function.  External collaborators (the langchain
splitters, the md5 digest, the embedding model, the BM25 fitting routine of
`rank_bm25`) are abstracted as explicit function parameters, exactly at the
call boundary where the source invokes them.
-/

set_option maxRecDepth 10000

namespace RepoSearch

/-! ## Python string primitives (on `List Char`) -/

/-- Characters Python's `str.strip()` removes (Python whitespace). -/
def isPySpace (c : Char) : Bool :=
  c = ' ' || c = '\t' || c = '\n' || c = '\r' || c = Char.ofNat 11 || c = Char.ofNat 12

/-- Python `s.strip()`: drop leading and trailing whitespace. -/
def pyStrip (s : List Char) : List Char :=
  ((s.dropWhile isPySpace).reverse.dropWhile isPySpace).reverse

/-- Python `s.startswith(pre)`. -/
def pyStartsWith (pre s : List Char) : Bool :=
  pre.isPrefixOf s

/-- Python `hay.find(needle)`: index of the first occurrence, `none` for `-1`.
`pyFind hay [] = some 0`, matching Python. -/
def pyFind (hay needle : List Char) : Option Nat :=
  if needle.isPrefixOf hay then some 0
  else
    match hay with
    | [] => none
    | _ :: t => (pyFind t needle).map (· + 1)

/-- Python `needle in hay` (substring test). -/
def pyContains (hay needle : List Char) : Bool :=
  (pyFind hay needle).isSome

/-- Python `s.split("\n")`. -/
def pyLines : List Char → List (List Char)
  | [] => [[]]
  | c :: t =>
    if c = '\n' then [] :: pyLines t
    else
      match pyLines t with
      | [] => [[c]]
      | l :: ls => (c :: l) :: ls

/-- Python `sep.join(parts)`. -/
def pyJoin (sep : List Char) : List (List Char) → List Char
  | [] => []
  | [p] => p
  | p :: ps => p ++ sep ++ pyJoin sep ps

/-! ## `_get_heading_chain` (src/repo-search/ingest.py lines 176-192) -/

/-- The `headings` dict of `_get_heading_chain`, keyed by depth 1/2/3. -/
structure HeadState where
  h1 : Option (List Char)
  h2 : Option (List Char)
  h3 : Option (List Char)
deriving DecidableEq, Repr

/-- One iteration of the line loop of `_get_heading_chain`. -/
def headStep (st : HeadState) (line : List Char) : HeadState :=
  let stripped := pyStrip line
  if pyStartsWith "### ".toList stripped then
    { st with h3 := some (pyStrip (stripped.drop 4)) }
  else if pyStartsWith "## ".toList stripped then
    { h1 := st.h1, h2 := some (pyStrip (stripped.drop 3)), h3 := none }
  else if pyStartsWith "# ".toList stripped then
    { h1 := some (pyStrip (stripped.drop 2)), h2 := none, h3 := none }
  else st

/-- Model of `parts = [headings[level] for level in sorted(headings.keys())]`. -/
def headParts (st : HeadState) : List (List Char) :=
  (match st.h1 with | some t => [t] | none => []) ++
  (match st.h2 with | some t => [t] | none => []) ++
  (match st.h3 with | some t => [t] | none => [])

/-- Model of `_get_heading_chain(content, position)`: scan the lines of
`content[:position]`, keep a stack keyed by heading depth, join with `" > "`. -/
def get_heading_chain (content : List Char) (position : Nat) : List Char :=
  let lines := pyLines (content.take position)
  let st := lines.foldl headStep ⟨none, none, none⟩
  pyJoin " > ".toList (headParts st)

/-! ## `chunk_text` (src/repo-search/ingest.py lines 195-230)

The langchain `MarkdownTextSplitter` / `RecursiveCharacterTextSplitter` is an
external library; it enters as the function parameter `splitter`
(already specialised to the chunk size / overlap the source passes). -/

/-- The per-chunk enrichment step of `chunk_text`'s markdown branch
(lines 213-221): locate the chunk by its first 80 stripped characters,
and prepend the heading chain when one is in effect, unless the chunk
itself starts with a top-level `# ` heading. -/
def chunkEnrich (content chunk : List Char) : List Char :=
  let searchKey := pyStrip (chunk.take 80)
  match pyFind content searchKey with
  | some pos =>
    if 0 < pos then
      let headingChain := get_heading_chain content pos
      if headingChain.isEmpty then chunk
      else if pyStartsWith "# ".toList (pyStrip chunk) then chunk
      else '[' :: headingChain ++ ']' :: '\n' :: '\n' :: chunk
    else chunk
  | none => chunk

/-- Model of `chunk_text(content, file_path, ...)`: split, enrich (markdown only),
then drop every chunk whose trimmed length is below 50 characters.
`isMd` selects the `.md` branch of the source's `if ext == ".md"`. -/
def chunk_text (isMd : Bool) (splitter : List Char → List (List Char))
    (content : List Char) : List (List Char) :=
  let chunks :=
    if isMd then (splitter content).map (chunkEnrich content)
    else splitter content
  chunks.filter (fun c => 50 ≤ (pyStrip c).length)

/-! ## Declarative heading-chain specification

`specHeadAt` renders the spec's description: the heading of depth `d` "in
effect" at an offset is the text of the last heading line of depth `d`
among the preceding lines, provided no heading line of depth `≤ d` follows
it (a shallower heading clears the deeper entries; an equal-depth heading
overwrites). -/

/-- Recognise a `#`/`##`/`###` heading line, returning depth and text
(the same stripping as the source's `stripped[n:].strip()`). -/
def parseHeading (line : List Char) : Option (Nat × List Char) :=
  let s := pyStrip line
  if pyStartsWith "### ".toList s then some (3, pyStrip (s.drop 4))
  else if pyStartsWith "## ".toList s then some (2, pyStrip (s.drop 3))
  else if pyStartsWith "# ".toList s then some (1, pyStrip (s.drop 2))
  else none

/-- Is `line` a heading line of depth `≤ d`? -/
def isHeadingLE (d : Nat) (line : List Char) : Bool :=
  match parseHeading line with
  | some (lvl, _) => lvl ≤ d
  | none => false

/-- The depth-`d` heading in effect after `lines`: the last heading line of
depth `≤ d`, if its depth is exactly `d`. -/
def specHeadAt (lines : List (List Char)) (d : Nat) : Option (List Char) :=
  match lines.reverse.find? (isHeadingLE d) with
  | some l =>
    match parseHeading l with
    | some (lvl, t) => if lvl = d then some t else none
    | none => none
  | none => none

/-- Helper: `optList o` is `[t]` when `o = some t`, else `[]`. -/
def optList : Option (List Char) → List (List Char)
  | some t => [t]
  | none => []

/-- The declarative heading chain at `position`: the enclosing headings in
effect there, ordered by depth, joined with `" > "`. -/
def specHeadingChain (content : List Char) (position : Nat) : List Char :=
  let lines := pyLines (content.take position)
  pyJoin " > ".toList
    (optList (specHeadAt lines 1) ++ optList (specHeadAt lines 2) ++
      optList (specHeadAt lines 3))

lemma headStep_eq (st : HeadState) (line : List Char) :
    headStep st line =
      match parseHeading line with
      | some (3, t) => { st with h3 := some t }
      | some (2, t) => { h1 := st.h1, h2 := some t, h3 := none }
      | some (1, t) => { h1 := some t, h2 := none, h3 := none }
      | _ => st := by
  simp only [headStep, parseHeading]
  split_ifs <;> rfl

lemma parseHeading_level {line : List Char} {lvl : Nat} {t : List Char}
    (h : parseHeading line = some (lvl, t)) : lvl = 1 ∨ lvl = 2 ∨ lvl = 3 := by
  simp only [parseHeading] at h
  split_ifs at h <;> simp_all

lemma foldl_headStep_spec (lines : List (List Char)) :
    lines.foldl headStep ⟨none, none, none⟩ =
      ⟨specHeadAt lines 1, specHeadAt lines 2, specHeadAt lines 3⟩ := by
  induction lines using List.reverseRecOn with
  | nil => simp [specHeadAt]
  | append_singleton l a ih =>
    rw [List.foldl_append, List.foldl_cons, List.foldl_nil, ih, headStep_eq]
    rcases h : parseHeading a with _ | ⟨lvl, t⟩
    · simp [specHeadAt, List.reverse_append, List.find?_cons, isHeadingLE, h]
    · rcases parseHeading_level h with h1 | h2 | h3
      · subst h1
        simp [specHeadAt, List.reverse_append, List.find?_cons, isHeadingLE, h]
      · subst h2
        simp [specHeadAt, List.reverse_append, List.find?_cons, isHeadingLE, h]
      · subst h3
        simp [specHeadAt, List.reverse_append, List.find?_cons, isHeadingLE, h]

lemma get_heading_chain_eq_spec (content : List Char) (position : Nat) :
    get_heading_chain content position = specHeadingChain content position := by
  simp only [get_heading_chain, specHeadingChain, foldl_headStep_spec, headParts]
  rcases specHeadAt (pyLines (content.take position)) 1 with _ | t1 <;>
    rcases specHeadAt (pyLines (content.take position)) 2 with _ | t2 <;>
      rcases specHeadAt (pyLines (content.take position)) 3 with _ | t3 <;> rfl

/-! ## Ingestion-time title prefix (src/repo-search/ingest.py lines 352-362) -/

/-- One chunk of the loop `if title not in chunk[:len(title) + 50]:
`chunk = f"[\x7btitle\x7d]\n\n\x7bchunk\x7d"`. -/
def titleEnrich (title chunk : List Char) : List Char :=
  if pyContains (chunk.take (title.length + 50)) title then chunk
  else '[' :: title ++ ']' :: '\n' :: '\n' :: chunk

/-! ### Trimmed-length lemmas -/

/-- Dropping trailing whitespace of `xs ++ c` leaves `xs` intact when `c`
contains a non-whitespace character. -/
lemma dropTrail_append (xs c : List Char)
    (h : c.reverse.dropWhile isPySpace ≠ []) :
    ((xs ++ c).reverse.dropWhile isPySpace).reverse =
      xs ++ (c.reverse.dropWhile isPySpace).reverse := by
  rw [List.reverse_append, List.dropWhile_append]
  have : (c.reverse.dropWhile isPySpace).isEmpty = false := by
    simpa [List.isEmpty_iff] using h
  rw [this]
  simp [List.reverse_append]

lemma pyStrip_ne_nil_revDrop {c : List Char} (h : pyStrip c ≠ []) :
    c.reverse.dropWhile isPySpace ≠ [] := by
  intro hnil
  apply h
  have hall : ∀ x ∈ c, isPySpace x = true := by
    intro x hx
    exact (List.dropWhile_eq_nil_iff.mp hnil) x (List.mem_reverse.mpr hx)
  have : c.dropWhile isPySpace = [] :=
    List.dropWhile_eq_nil_iff.mpr hall
  simp [pyStrip, this]

/-- The trimmed length of `c` is at most the length of `c` with only its
trailing whitespace removed. -/
lemma pyStrip_length_le_dropTrail (c : List Char) :
    (pyStrip c).length ≤ ((c.reverse.dropWhile isPySpace).reverse).length := by
  by_cases h : pyStrip c = []
  · simp [h]
  · have hsplit := List.takeWhile_append_dropWhile isPySpace c
    have hne : (c.dropWhile isPySpace).reverse.dropWhile isPySpace ≠ [] := by
      intro hnil
      apply h
      simp [pyStrip, hnil]
    calc (pyStrip c).length
        = ((c.dropWhile isPySpace).reverse.dropWhile isPySpace).reverse.length := rfl
      _ ≤ (c.takeWhile isPySpace).length
            + ((c.dropWhile isPySpace).reverse.dropWhile isPySpace).reverse.length := by
            omega
      _ = ((c.takeWhile isPySpace
            ++ ((c.dropWhile isPySpace).reverse.dropWhile isPySpace).reverse)).length := by
            simp
      _ = ((c.reverse.dropWhile isPySpace).reverse).length := by
            rw [← dropTrail_append _ _ hne]
            conv_rhs => rw [← hsplit]

/-- Prepending `[s]\n\n` to a chunk with non-blank trimmed text never
shortens the trimmed text. -/
lemma pyStrip_bracket_prefix_ge (s c : List Char) (h : pyStrip c ≠ []) :
    (pyStrip c).length ≤ (pyStrip ('[' :: s ++ ']' :: '\n' :: '\n' :: c)).length := by
  have hrev := pyStrip_ne_nil_revDrop h
  have hshape : '[' :: s ++ ']' :: '\n' :: '\n' :: c
      = ('[' :: s ++ [']', '\n', '\n']) ++ c := by simp
  have hdw : (('[' :: s ++ [']', '\n', '\n']) ++ c).dropWhile isPySpace
      = ('[' :: s ++ [']', '\n', '\n']) ++ c := by
    have h2 : ('[' :: s ++ [']', '\n', '\n']) ++ c
        = '[' :: (s ++ [']', '\n', '\n'] ++ c) := by simp
    have h3 : isPySpace '[' = false := by decide
    rw [h2, List.dropWhile_cons, h3]
    simp
  calc (pyStrip c).length
      ≤ ((c.reverse.dropWhile isPySpace).reverse).length :=
        pyStrip_length_le_dropTrail c
    _ ≤ (('[' :: s ++ [']', '\n', '\n'])
          ++ (c.reverse.dropWhile isPySpace).reverse).length := by
        simp
        omega
    _ = (pyStrip ('[' :: s ++ ']' :: '\n' :: '\n' :: c)).length := by
        rw [hshape]
        unfold pyStrip
        rw [hdw, dropTrail_append _ _ hrev]

lemma titleEnrich_strip_ge (title c : List Char) (h : 50 ≤ (pyStrip c).length) :
    50 ≤ (pyStrip (titleEnrich title c)).length := by
  unfold titleEnrich
  split
  · exact h
  · have hne : pyStrip c ≠ [] := by
      intro hnil
      rw [hnil] at h
      simp at h
    exact le_trans h (pyStrip_bracket_prefix_ge title c hne)

/-! ## Claim theorems: C7 (chunk minimum length) and C8 (heading chain) -/

/-- Markdown document used to exercise C7: a long `# ` title, a paragraph,
and a short trailing `## ` section. -/
def contentC7 : List Char :=
  ("# Annual Engineering Productivity Review Summary\n\n" ++
   "Intro paragraph with plenty of words to occupy space here.\n\n" ++
   "## Tools\nvim and git").toList

/-- The short trailing split segment of `contentC7` (trimmed length 20). -/
def segC7 : List Char := "## Tools\nvim and git".toList

/-- A heading-boundary split of `contentC7`, as the markdown splitter
produces: the `# ` title line and the trailing `## ` section. -/
def splitC7 : List Char → List (List Char) := fun s => [s.take 48, s.drop 110]

/-- C7 fails as stated: the split segment `"## Tools\nvim and git"` has
trimmed length 20 < 50, yet `chunk_text` does not discard it — its
heading-annotated form (which passes the 50-character test only because the
`[heading chain]` prefix is counted) is stored. -/
theorem chunk_min_length_counterexample :
    (pyStrip segC7).length < 50 ∧
    chunk_text true splitC7 contentC7 = [chunkEnrich contentC7 segC7] ∧
    segC7 <:+ chunkEnrich contentC7 segC7 ∧
    50 ≤ (pyStrip (chunkEnrich contentC7 segC7)).length := by
  refine ⟨by decide, by decide, by decide, by decide⟩

/-- C7 (amended): every chunk `chunk_text` returns has trimmed length at
least 50, and the ingestion-time title prefix preserves that bound, so every
stored chunk has trimmed length at least 50.  For non-markdown content every
split segment of trimmed length below 50 is discarded; for markdown content
the 50-character discard test is applied to the heading-annotated chunk. -/
theorem chunk_min_length_invariant :
    (∀ (isMd : Bool) (splitter : List Char → List (List Char))
        (content c : List Char),
        c ∈ chunk_text isMd splitter content → 50 ≤ (pyStrip c).length) ∧
    (∀ title c : List Char, 50 ≤ (pyStrip c).length →
        50 ≤ (pyStrip (titleEnrich title c)).length) ∧
    (∀ (splitter : List Char → List (List Char)) (content s : List Char),
        (pyStrip s).length < 50 → s ∉ chunk_text false splitter content) ∧
    (∀ (splitter : List Char → List (List Char)) (content s : List Char),
        (pyStrip (chunkEnrich content s)).length < 50 →
        chunkEnrich content s ∉ chunk_text true splitter content) := by
  have hmem : ∀ (isMd : Bool) (splitter : List Char → List (List Char))
      (content c : List Char),
      c ∈ chunk_text isMd splitter content → 50 ≤ (pyStrip c).length := by
    intro isMd splitter content c hc
    unfold chunk_text at hc
    have := (List.mem_filter.mp hc).2
    exact of_decide_eq_true this
  refine ⟨hmem, titleEnrich_strip_ge, ?_, ?_⟩
  · intro splitter content s hlt hmem'
    exact absurd (hmem false splitter content s hmem') (by omega)
  · intro splitter content s hlt hmem'
    exact absurd (hmem true splitter content (chunkEnrich content s) hmem') (by omega)

/-- Witness for C7: the annotated chunk stored from `contentC7` has trimmed
length at least 50. -/
theorem chunk_min_length_invariant_witness :
    50 ≤ (pyStrip (chunkEnrich contentC7 segC7)).length :=
  chunk_min_length_invariant.1 true splitC7 contentC7
    (chunkEnrich contentC7 segC7) (by decide)

/-- Markdown document used to exercise C8. -/
def contentC8 : List Char :=
  ("# Release Notes Overview\n\n" ++
   "The quarterly release introduces several improvements.\n\n" ++
   "## Fixes\nminor bug fixes").toList

/-- A chunk of `contentC8` starting at offset 82, under the `# Release Notes
Overview` heading. -/
def chunkC8 : List Char := "## Fixes\nminor bug fixes".toList

/-- C8: `_get_heading_chain` computes exactly the declaratively specified
chain of enclosing `#`/`##`/`###` headings in effect at the offset, and the
markdown branch of `chunk_text` annotates a chunk located at offset `p > 0`
with that chain in `[H1 > H2 > H3]` form, unless the chunk itself begins with
a top-level `# ` heading (or no heading is in effect at the offset). -/
theorem heading_chain_correct (content chunk : List Char) (p : Nat)
    (hfind : pyFind content (pyStrip (chunk.take 80)) = some p)
    (hp : 0 < p) :
    (∀ (c : List Char) (pos : Nat),
        get_heading_chain c pos = specHeadingChain c pos) ∧
    chunkEnrich content chunk =
      (if (specHeadingChain content p).isEmpty then chunk
       else if pyStartsWith "# ".toList (pyStrip chunk) then chunk
       else '[' :: specHeadingChain content p ++ ']' :: '\n' :: '\n' :: chunk) := by
  refine ⟨get_heading_chain_eq_spec, ?_⟩
  unfold chunkEnrich
  simp only [hfind, hp, if_true, get_heading_chain_eq_spec]

/-- Witness for C8: the chunk at offset 82 of `contentC8` is annotated with
the chain `Release Notes Overview`. -/
theorem heading_chain_correct_witness :
    pyFind contentC8 (pyStrip (chunkC8.take 80)) = some 82 ∧
    chunkEnrich contentC8 chunkC8 =
      ('[' :: "Release Notes Overview".toList
        ++ ']' :: '\n' :: '\n' :: chunkC8) := by
  refine ⟨by decide, ?_⟩
  exact (heading_chain_correct contentC8 chunkC8 82 (by decide) (by decide)).2.trans
    (by decide)

/-! ## Query engine (src/repo-search/query.py)

Scores are modelled as `ℚ` (the Python floats here are sums of reciprocals
of small integers and BM25 scores; the claims only involve their ordered
field structure).  Python's `sorted(..., key=k, reverse=True)` is a stable
descending sort; it is modelled by a stable insertion sort, which produces
the same list as any stable sort by the same key. -/

/-- Insert `a` into a descending-sorted list, after all elements with
greater-or-equal key (stability). -/
def insertDesc {α : Type} (key : α → ℚ) (a : α) : List α → List α
  | [] => [a]
  | b :: t => if key b < key a then a :: b :: t else b :: insertDesc key a t

/-- Python `sorted(l, key=key, reverse=True)` (stable). -/
def pySortDesc {α : Type} (key : α → ℚ) (l : List α) : List α :=
  l.foldl (fun acc a => insertDesc key a acc) []

/-- The value of the Python dict `rrf_scores` at a key (`0` when absent,
matching `rrf_scores.get(chunk_id, 0)`). -/
def rrfVal : List (String × ℚ) → String → ℚ
  | [], _ => 0
  | p :: t, id => if p.1 = id then p.2 else rrfVal t id

/-- Model of `rrf_scores[chunk_id] = rrf_scores.get(chunk_id, 0) + v`: a Python dict
update, preserving insertion order of keys. -/
def dictAdd (d : List (String × ℚ)) (k : String) (v : ℚ) : List (String × ℚ) :=
  if d.any (fun p => p.1 = k) then
    d.map (fun p => if p.1 = k then (p.1, p.2 + v) else p)
  else d ++ [(k, v)]

/-- The loop `for rank, chunk_id in enumerate(ids, start=1):
`rrf_scores[chunk_id] += 1.0 / (k + rank)` with `k = 60`. -/
def rrfAccum (d : List (String × ℚ)) (start : Nat) :
    List String → List (String × ℚ)
  | [] => d
  | id :: t => rrfAccum (dictAdd d id (1 / (60 + (start : ℚ)))) (start + 1) t

/-- The `rrf_scores` dict of `hybrid_search` after both enumeration loops
(vector ids first, then BM25 ids). -/
def rrfScores (vecIds bmIds : List String) : List (String × ℚ) :=
  rrfAccum (rrfAccum [] 1 vecIds) 1 bmIds

/-- Model of `rrf_scores.keys()` in insertion order. -/
def rrfKeys (d : List (String × ℚ)) : List String := d.map Prod.fst

/-- Model of `sorted(rrf_scores.keys(), key=lambda x: rrf_scores[x], reverse=True)[:top_k]`. -/
def rrfSortedIds (d : List (String × ℚ)) (topK : Nat) : List String :=
  (pySortDesc (rrfVal d) (rrfKeys d)).take topK

/-- The persisted BM25 blob (`bm25_index.pkl`): fitted scorer plus parallel
arrays of chunk ids, documents and metadatas.  The scorer's `get_scores`
method (external `rank_bm25` library) is carried as a function. -/
structure BM25Blob where
  getScores : List String → List ℚ
  ids : List String
  documents : List String
  metadatas : List String

/-- A search result dict (`id` / `score` / `metadata` / `content`). -/
structure SearchResult where
  id : String
  score : ℚ
  metadata : String
  content : String
deriving DecidableEq

/-- Python `query.lower().split()`: lowercase, then split on whitespace
runs, dropping empty tokens. -/
def pyWsSplitAux : List Char → List Char → List (List Char)
  | [], cur => if cur.isEmpty then [] else [cur.reverse]
  | c :: t, cur =>
    if isPySpace c then
      if cur.isEmpty then pyWsSplitAux t [] else cur.reverse :: pyWsSplitAux t []
    else pyWsSplitAux t (c :: cur)

/-- Python `s.split()` (no separator argument). -/
def pyWsSplit (s : List Char) : List (List Char) := pyWsSplitAux s []

/-- Model of `tokenized_query = query.lower().split()`. -/
def pyTokenize (query : String) : List String :=
  (pyWsSplit (query.toList.map Char.toLower)).map List.asString

/-- Model of `keyword_search(collection, db_path, query, top_k)` (query.py lines
312-329), with the loaded blob (`None` when no `bm25_index.pkl` exists)
passed in place of `_load_bm25(db_path)`. -/
def keyword_search (blob? : Option BM25Blob) (query : String) (topK : Nat) :
    List SearchResult :=
  match blob? with
  | none => []
  | some b =>
    let scores := b.getScores (pyTokenize query)
    let topIndices :=
      (pySortDesc (fun i => scores.getD i 0) (List.range scores.length)).take topK
    topIndices.filterMap (fun idx =>
      if 0 < scores.getD idx 0 then
        some ⟨b.ids.getD idx "", scores.getD idx 0,
              b.metadatas.getD idx "", b.documents.getD idx ""⟩
      else none)

/-- The vector-search result lists returned by `collection.query` (the
embedding store is the external collaborator; `hybrid_search` consumes its
parallel result arrays). -/
structure VecResults where
  ids : List String
  documents : List String
  metadatas : List String

/-- Model of `hybrid_search` (query.py lines 332-392): BM25 search, RRF fusion with
`k = 60`, stable descending sort of the fused scores, top-k cut, then result
assembly from the vector arrays (first) or the BM25 results. -/
def hybrid_search (vec : VecResults) (blob? : Option BM25Blob)
    (query : String) (topK : Nat) : List SearchResult :=
  let bmResults := keyword_search blob? query (topK * 2)
  let d := rrfScores vec.ids (bmResults.map SearchResult.id)
  let sortedIds := rrfSortedIds d topK
  sortedIds.filterMap (fun cid =>
    match vec.ids.findIdx? (fun x => x = cid) with
    | some idx =>
      some ⟨cid, rrfVal d cid, vec.metadatas.getD idx "", vec.documents.getD idx ""⟩
    | none =>
      match bmResults.find? (fun r => r.id = cid) with
      | some r => some ⟨cid, rrfVal d cid, r.metadata, r.content⟩
      | none => none)

/-! ### RRF dictionary lemmas -/

lemma any_key_iff (d : List (String × ℚ)) (k : String) :
    d.any (fun p => p.1 = k) = true ↔ k ∈ rrfKeys d := by
  rw [List.any_eq_true]
  constructor
  · rintro ⟨p, hp, hpk⟩
    exact List.mem_map.mpr ⟨p, hp, of_decide_eq_true hpk⟩
  · intro h
    rcases List.mem_map.mp h with ⟨p, hp, hpk⟩
    exact ⟨p, hp, decide_eq_true hpk⟩

lemma rrfVal_map_ne (d : List (String × ℚ)) (k : String) (v : ℚ) (id : String)
    (hid : ¬ id = k) :
    rrfVal (d.map fun p => if p.1 = k then (p.1, p.2 + v) else p) id =
      rrfVal d id := by
  have hk : ¬ k = id := fun h => hid h.symm
  induction d with
  | nil => simp [rrfVal]
  | cons p t ih =>
    by_cases hpk : p.1 = k
    · have hp_id : ¬ p.1 = id := by
        rw [hpk]
        exact hk
      simp [rrfVal, hpk, hp_id, ih, hk]
    · by_cases hp_id : p.1 = id <;> simp [rrfVal, hpk, hp_id, ih, hid, hk]

lemma rrfVal_map_self (d : List (String × ℚ)) (k : String) (v : ℚ)
    (hany : d.any (fun p => p.1 = k) = true) :
    rrfVal (d.map fun p => if p.1 = k then (p.1, p.2 + v) else p) k =
      rrfVal d k + v := by
  induction d with
  | nil => simp at hany
  | cons p t ih =>
    by_cases hpk : p.1 = k
    · simp [rrfVal, hpk]
    · have hany' : t.any (fun p => p.1 = k) = true := by
        simpa [List.any_cons, hpk] using hany
      simp [rrfVal, hpk, ih hany']

lemma rrfVal_append_ne (d : List (String × ℚ)) (k : String) (v : ℚ)
    (id : String) (hid : ¬ id = k) :
    rrfVal (d ++ [(k, v)]) id = rrfVal d id := by
  have hk : ¬ k = id := fun h => hid h.symm
  induction d with
  | nil =>
    simp only [List.nil_append, rrfVal, if_neg hk]
  | cons p t ih =>
    by_cases hp : p.1 = id <;> simp [rrfVal, hp, ih]

lemma rrfVal_append_self (d : List (String × ℚ)) (k : String) (v : ℚ)
    (habs : ∀ p ∈ d, ¬ p.1 = k) :
    rrfVal (d ++ [(k, v)]) k = v := by
  induction d with
  | nil => simp [rrfVal]
  | cons p t ih =>
    have hp : ¬ p.1 = k := habs p (List.mem_cons_self p t)
    simp only [List.cons_append, rrfVal, if_neg hp]
    exact ih (fun q hq => habs q (List.mem_cons_of_mem p hq))

lemma rrfVal_eq_zero_of_absent (d : List (String × ℚ)) (id : String)
    (habs : ∀ p ∈ d, ¬ p.1 = id) : rrfVal d id = 0 := by
  induction d with
  | nil => rfl
  | cons p t ih =>
    simp only [rrfVal, if_neg (habs p (List.mem_cons_self p t))]
    exact ih (fun q hq => habs q (List.mem_cons_of_mem p hq))

lemma rrfVal_dictAdd (d : List (String × ℚ)) (k : String) (v : ℚ) (id : String) :
    rrfVal (dictAdd d k v) id = rrfVal d id + if id = k then v else 0 := by
  unfold dictAdd
  by_cases hany : d.any (fun p => p.1 = k) = true
  · rw [if_pos hany]
    by_cases hid : id = k
    · subst hid
      rw [rrfVal_map_self d id v hany, if_pos rfl]
    · rw [rrfVal_map_ne d k v id hid, if_neg hid, add_zero]
  · rw [if_neg hany]
    have habs : ∀ p ∈ d, ¬ p.1 = k := by
      intro p hp hpk
      exact hany (List.any_eq_true.mpr ⟨p, hp, by simp [hpk]⟩)
    by_cases hid : id = k
    · subst hid
      rw [rrfVal_append_self d id v habs, rrfVal_eq_zero_of_absent d id habs]
      simp
    · rw [rrfVal_append_ne d k v id hid]
      simp [hid]

lemma rrfKeys_dictAdd (d : List (String × ℚ)) (k : String) (v : ℚ) :
    rrfKeys (dictAdd d k v) =
      if k ∈ rrfKeys d then rrfKeys d else rrfKeys d ++ [k] := by
  unfold dictAdd
  by_cases hany : d.any (fun p => p.1 = k) = true
  · rw [if_pos hany, if_pos ((any_key_iff d k).mp hany)]
    simp only [rrfKeys, List.map_map]
    congr 1
    funext p
    by_cases h : p.1 = k <;> simp [h]
  · rw [if_neg hany, if_neg (fun h => hany ((any_key_iff d k).mpr h))]
    simp [rrfKeys]

lemma mem_rrfKeys_dictAdd (d : List (String × ℚ)) (k : String) (v : ℚ)
    (id : String) :
    id ∈ rrfKeys (dictAdd d k v) ↔ id ∈ rrfKeys d ∨ id = k := by
  rw [rrfKeys_dictAdd]
  by_cases h : k ∈ rrfKeys d
  · rw [if_pos h]
    constructor
    · exact Or.inl
    · rintro (hid | rfl) <;> [exact hid; exact h]
  · rw [if_neg h]
    simp

lemma nodup_rrfKeys_dictAdd {d : List (String × ℚ)} (k : String) (v : ℚ)
    (hd : (rrfKeys d).Nodup) : (rrfKeys (dictAdd d k v)).Nodup := by
  rw [rrfKeys_dictAdd]
  by_cases h : k ∈ rrfKeys d
  · rwa [if_pos h]
  · rw [if_neg h]
    simpa [List.nodup_append] using ⟨hd, h⟩

lemma rrfVal_rrfAccum (ids : List String) :
    ∀ (d : List (String × ℚ)) (s : Nat), ids.Nodup → ∀ id,
      rrfVal (rrfAccum d s ids) id =
        rrfVal d id +
          (if id ∈ ids then 1 / (60 + (s : ℚ) + (ids.indexOf id : ℚ)) else 0) := by
  induction ids with
  | nil => intro d s _ id; simp [rrfAccum]
  | cons a t ih =>
    intro d s hnd id
    have hnd' : t.Nodup := hnd.of_cons
    rw [rrfAccum, ih _ (s + 1) hnd' id, rrfVal_dictAdd]
    by_cases hid : id = a
    · subst hid
      have hnotmem : id ∉ t := by
        intro h
        exact (List.nodup_cons.mp hnd).1 h
      simp only [hnotmem, if_false, if_pos rfl, List.mem_cons, true_or, if_true]
      rw [List.indexOf_cons]
      simp [add_zero]
    · have hne : ¬ (a == id) = true := by simp [beq_iff_eq]; exact fun h => hid h.symm
      rw [List.indexOf_cons]
      simp only [hne, cond_false, if_neg hid, add_zero]
      by_cases hmem : id ∈ t
      · simp only [hmem, if_true, List.mem_cons, or_true, if_pos]
        push_cast
        ring_nf
      · simp only [hmem, if_false, List.mem_cons]
        rw [if_neg (by simp [hid, hmem])]

lemma mem_rrfKeys_rrfAccum (ids : List String) :
    ∀ (d : List (String × ℚ)) (s : Nat) (id : String),
      id ∈ rrfKeys (rrfAccum d s ids) ↔ id ∈ rrfKeys d ∨ id ∈ ids := by
  induction ids with
  | nil => intro d s id; simp [rrfAccum]
  | cons a t ih =>
    intro d s id
    rw [rrfAccum, ih, mem_rrfKeys_dictAdd]
    simp [or_assoc]

lemma nodup_rrfKeys_rrfAccum (ids : List String) :
    ∀ (d : List (String × ℚ)) (s : Nat), (rrfKeys d).Nodup →
      (rrfKeys (rrfAccum d s ids)).Nodup := by
  induction ids with
  | nil => intro d s hd; simpa [rrfAccum]
  | cons a t ih =>
    intro d s hd
    rw [rrfAccum]
    exact ih _ _ (nodup_rrfKeys_dictAdd a _ hd)

/-! ### Stable descending sort lemmas -/

lemma insertDesc_perm {α : Type} (key : α → ℚ) (a : α) (l : List α) :
    (insertDesc key a l).Perm (a :: l) := by
  induction l with
  | nil => simp [insertDesc]
  | cons b t ih =>
    rw [insertDesc]
    by_cases h : key b < key a
    · rw [if_pos h]
    · rw [if_neg h]
      exact (ih.cons b).trans (List.Perm.swap a b t)

lemma insertDesc_sorted {α : Type} (key : α → ℚ) (a : α) {l : List α}
    (hl : l.Pairwise (fun x y => key y ≤ key x)) :
    (insertDesc key a l).Pairwise (fun x y => key y ≤ key x) := by
  induction l with
  | nil => simp [insertDesc]
  | cons b t ih =>
    rw [insertDesc]
    rcases List.pairwise_cons.mp hl with ⟨hb, ht⟩
    by_cases h : key b < key a
    · rw [if_pos h]
      refine List.pairwise_cons.mpr ⟨?_, hl⟩
      intro x hx
      rcases List.mem_cons.mp hx with rfl | hx
      · exact le_of_lt h
      · exact le_trans (hb x hx) (le_of_lt h)
    · rw [if_neg h]
      refine List.pairwise_cons.mpr ⟨?_, ih ht⟩
      intro x hx
      have hx' := (insertDesc_perm key a t).mem_iff.mp hx
      rcases List.mem_cons.mp hx' with rfl | hx'
      · exact le_of_not_lt h
      · exact hb x hx'

lemma pySortDesc_foldl_perm {α : Type} (key : α → ℚ) (l : List α) :
    ∀ acc : List α,
      (l.foldl (fun acc a => insertDesc key a acc) acc).Perm (acc ++ l) := by
  induction l with
  | nil => intro acc; simp
  | cons a t ih =>
    intro acc
    rw [List.foldl_cons]
    exact (ih _).trans
      (((insertDesc_perm key a acc).append_right t).trans List.perm_middle.symm)

lemma pySortDesc_perm {α : Type} (key : α → ℚ) (l : List α) :
    (pySortDesc key l).Perm l := by
  simpa using pySortDesc_foldl_perm key l []

lemma pySortDesc_foldl_sorted {α : Type} (key : α → ℚ) (l : List α) :
    ∀ acc : List α, acc.Pairwise (fun x y => key y ≤ key x) →
      (l.foldl (fun acc a => insertDesc key a acc)
          acc).Pairwise (fun x y => key y ≤ key x) := by
  induction l with
  | nil => intro acc hacc; simpa
  | cons a t ih =>
    intro acc hacc
    rw [List.foldl_cons]
    exact ih _ (insertDesc_sorted key a hacc)

lemma pySortDesc_sorted {α : Type} (key : α → ℚ) (l : List α) :
    (pySortDesc key l).Pairwise (fun x y => key y ≤ key x) :=
  pySortDesc_foldl_sorted key l [] List.Pairwise.nil

lemma rrfVal_rrfScores (vecIds bmIds : List String) (hv : vecIds.Nodup)
    (hb : bmIds.Nodup) (id : String) :
    rrfVal (rrfScores vecIds bmIds) id =
      (if id ∈ vecIds then 1 / (60 + ((vecIds.indexOf id : ℚ) + 1)) else 0) +
      (if id ∈ bmIds then 1 / (60 + ((bmIds.indexOf id : ℚ) + 1)) else 0) := by
  unfold rrfScores
  rw [rrfVal_rrfAccum bmIds _ 1 hb id, rrfVal_rrfAccum vecIds [] 1 hv id]
  simp only [rrfVal]
  split_ifs <;> push_cast <;> ring

lemma rrfKeys_scores_mem (vecIds bmIds : List String) (id : String) :
    id ∈ rrfKeys (rrfScores vecIds bmIds) ↔ id ∈ vecIds ∨ id ∈ bmIds := by
  unfold rrfScores
  rw [mem_rrfKeys_rrfAccum, mem_rrfKeys_rrfAccum]
  simp [rrfKeys]

lemma filterMap_map_id (l : List String) (f : String → Option SearchResult)
    (h : ∀ x ∈ l, ∃ r, f x = some r ∧ r.id = x) :
    (l.filterMap f).map SearchResult.id = l := by
  induction l with
  | nil => rfl
  | cons a t ih =>
    rcases h a (List.mem_cons_self a t) with ⟨r, hr, hid⟩
    rw [List.filterMap_cons, hr, List.map_cons, hid,
      ih (fun x hx => h x (List.mem_cons_of_mem a hx))]

lemma hybrid_search_ids (vec : VecResults) (blob? : Option BM25Blob)
    (q : String) (k : Nat) :
    (hybrid_search vec blob? q k).map SearchResult.id =
      rrfSortedIds
        (rrfScores vec.ids ((keyword_search blob? q (k * 2)).map SearchResult.id))
        k := by
  unfold hybrid_search
  apply filterMap_map_id
  intro cid hcid
  have hkeys : cid ∈ rrfKeys (rrfScores vec.ids
      ((keyword_search blob? q (k * 2)).map SearchResult.id)) :=
    (pySortDesc_perm _ _).mem_iff.mp (List.mem_of_mem_take hcid)
  rcases (rrfKeys_scores_mem _ _ _).mp hkeys with hvec | hbm
  · rcases hfi : vec.ids.findIdx? (fun x => x = cid) with _ | idx
    · exfalso
      have := List.findIdx?_eq_none_iff.mp hfi cid hvec
      simp at this
    · simp only [hfi]
      exact ⟨_, rfl, rfl⟩
  · rcases List.mem_map.mp hbm with ⟨r, hr, hrid⟩
    rcases hfi : vec.ids.findIdx? (fun x => x = cid) with _ | idx
    · have hsome : ((keyword_search blob? q (k * 2)).find?
          (fun r => r.id = cid)).isSome = true :=
        List.find?_isSome.mpr ⟨r, hr, by simp [hrid]⟩
      rcases hfound : (keyword_search blob? q (k * 2)).find?
          (fun r => r.id = cid) with _ | r'
      · rw [hfound] at hsome
        simp at hsome
      · simp only [hfi, hfound]
        exact ⟨_, rfl, rfl⟩
    · simp only [hfi]
      exact ⟨_, rfl, rfl⟩

/-- Lists used in the spec's concrete RRF example. -/
def vecC1 : VecResults := ⟨["A", "B", "C"], ["dA", "dB", "dC"], ["mA", "mB", "mC"]⟩

/-- A BM25 blob whose keyword ranking is `[B, A, D]`. -/
def blobC1 : BM25Blob :=
  ⟨fun _ => [3, 2, 1], ["B", "A", "D"], ["docB", "docA", "docD"], ["mB", "mA", "mD"]⟩

lemma rrfScores_example :
    rrfScores ["A", "B", "C"] ["B", "A", "D"] =
      [("A", 1/61 + 1/62), ("B", 1/62 + 1/61), ("C", (1 : ℚ)/63), ("D", 1/63)] := by
  have hAB : ("A" : String) ≠ "B" := by decide
  have hBA : ("B" : String) ≠ "A" := by decide
  have hAC : ("A" : String) ≠ "C" := by decide
  have hCA : ("C" : String) ≠ "A" := by decide
  have hAD : ("A" : String) ≠ "D" := by decide
  have hDA : ("D" : String) ≠ "A" := by decide
  have hBC : ("B" : String) ≠ "C" := by decide
  have hCB : ("C" : String) ≠ "B" := by decide
  have hBD : ("B" : String) ≠ "D" := by decide
  have hDB : ("D" : String) ≠ "B" := by decide
  have hCD : ("C" : String) ≠ "D" := by decide
  have hDC : ("D" : String) ≠ "C" := by decide
  norm_num [rrfScores, rrfAccum, dictAdd, List.any_cons, List.any_nil,
    hAB, hBA, hAC, hCA, hAD, hDA, hBC, hCB, hBD, hDB, hCD, hDC]

lemma rrfSortedIds_example :
    rrfSortedIds (rrfScores ["A", "B", "C"] ["B", "A", "D"]) 4 =
      ["A", "B", "C", "D"] := by
  have hAB : ("A" : String) ≠ "B" := by decide
  have hBA : ("B" : String) ≠ "A" := by decide
  have hAC : ("A" : String) ≠ "C" := by decide
  have hCA : ("C" : String) ≠ "A" := by decide
  have hAD : ("A" : String) ≠ "D" := by decide
  have hDA : ("D" : String) ≠ "A" := by decide
  have hBC : ("B" : String) ≠ "C" := by decide
  have hCB : ("C" : String) ≠ "B" := by decide
  have hBD : ("B" : String) ≠ "D" := by decide
  have hDB : ("D" : String) ≠ "B" := by decide
  have hCD : ("C" : String) ≠ "D" := by decide
  have hDC : ("D" : String) ≠ "C" := by decide
  rw [rrfSortedIds, rrfScores_example]
  norm_num [rrfKeys, pySortDesc, insertDesc, rrfVal,
    hAB, hBA, hAC, hCA, hAD, hDA, hBC, hCB, hBD, hDB, hCD, hDC]

lemma rrfVal_example (id : String) (v : ℚ)
    (hval : rrfVal [("A", 1/61 + 1/62), ("B", 1/62 + 1/61),
      ("C", (1 : ℚ)/63), ("D", 1/63)] id = v) :
    rrfVal (rrfScores ["A", "B", "C"] ["B", "A", "D"]) id = v := by
  rw [rrfScores_example, hval]

/-- C1: the fused RRF score of a chunk is the sum, over the ranked lists
in which it appears, of `1/(60 + rank)` with `rank` its 1-based position in
that list; the hybrid result list consists of the top-k chunk ids by
descending fused score (ties in either order); and on the spec's concrete
example (vector ranks `[A,B,C]`, keyword ranks `[B,A,D]`) `A` and `B` each
score exactly `1/61 + 1/62` while `C` and `D` score strictly lower. -/
theorem rrf_fusion_correct (vecIds bmIds : List String) (k : Nat)
    (hv : vecIds.Nodup) (hb : bmIds.Nodup) :
    (∀ id, rrfVal (rrfScores vecIds bmIds) id =
        (if id ∈ vecIds then 1 / (60 + ((vecIds.indexOf id : ℚ) + 1)) else 0) +
        (if id ∈ bmIds then 1 / (60 + ((bmIds.indexOf id : ℚ) + 1)) else 0)) ∧
    (rrfSortedIds (rrfScores vecIds bmIds) k).Pairwise
      (fun a b => rrfVal (rrfScores vecIds bmIds) b
        ≤ rrfVal (rrfScores vecIds bmIds) a) ∧
    (∀ a ∈ rrfSortedIds (rrfScores vecIds bmIds) k,
        a ∈ rrfKeys (rrfScores vecIds bmIds)) ∧
    (∀ b ∈ rrfKeys (rrfScores vecIds bmIds),
        b ∉ rrfSortedIds (rrfScores vecIds bmIds) k →
        ∀ a ∈ rrfSortedIds (rrfScores vecIds bmIds) k,
          rrfVal (rrfScores vecIds bmIds) b
            ≤ rrfVal (rrfScores vecIds bmIds) a) ∧
    (rrfSortedIds (rrfScores vecIds bmIds) k).length
        = min k (rrfKeys (rrfScores vecIds bmIds)).length ∧
    (∀ (vec : VecResults) (blob? : Option BM25Blob) (q : String) (kk : Nat),
        (hybrid_search vec blob? q kk).map SearchResult.id =
          rrfSortedIds (rrfScores vec.ids
            ((keyword_search blob? q (kk * 2)).map SearchResult.id)) kk) ∧
    rrfVal (rrfScores ["A", "B", "C"] ["B", "A", "D"]) "A" = 1/61 + 1/62 ∧
    rrfVal (rrfScores ["A", "B", "C"] ["B", "A", "D"]) "B" = 1/62 + 1/61 ∧
    rrfVal (rrfScores ["A", "B", "C"] ["B", "A", "D"]) "C"
        < rrfVal (rrfScores ["A", "B", "C"] ["B", "A", "D"]) "A" ∧
    rrfVal (rrfScores ["A", "B", "C"] ["B", "A", "D"]) "D"
        < rrfVal (rrfScores ["A", "B", "C"] ["B", "A", "D"]) "B" ∧
    (hybrid_search vecC1 (some blobC1) "q" 4).map SearchResult.id
        = ["A", "B", "C", "D"] := by
  refine ⟨rrfVal_rrfScores vecIds bmIds hv hb, ?_, ?_, ?_, ?_, ?_, ?_, ?_, ?_, ?_, ?_⟩
  · exact List.Pairwise.sublist (List.take_sublist k _) (pySortDesc_sorted _ _)
  · intro a ha
    exact (pySortDesc_perm _ _).mem_iff.mp (List.mem_of_mem_take ha)
  · intro b hb' hnot a ha
    have hsorted := pySortDesc_sorted (rrfVal (rrfScores vecIds bmIds))
      (rrfKeys (rrfScores vecIds bmIds))
    have hsplit := List.take_append_drop k
      (pySortDesc (rrfVal (rrfScores vecIds bmIds)) (rrfKeys (rrfScores vecIds bmIds)))
    rw [← hsplit] at hsorted
    rcases List.pairwise_append.mp hsorted with ⟨_, _, hcross⟩
    have hbmem : b ∈ pySortDesc (rrfVal (rrfScores vecIds bmIds))
        (rrfKeys (rrfScores vecIds bmIds)) := (pySortDesc_perm _ _).mem_iff.mpr hb'
    rw [← hsplit] at hbmem
    rcases List.mem_append.mp hbmem with hbtake | hbdrop
    · exact absurd hbtake hnot
    · exact hcross a ha b hbdrop
  · rw [rrfSortedIds, List.length_take, (pySortDesc_perm _ _).length_eq]
  · exact hybrid_search_ids
  · exact rrfVal_example "A" _ (by norm_num [rrfVal])
  · exact rrfVal_example "B" _ (by norm_num [rrfVal, show ("A" : String) ≠ "B" by decide])
  · rw [rrfVal_example "C" ((1 : ℚ)/63) (by
        norm_num [rrfVal, show ("A" : String) ≠ "C" by decide,
          show ("B" : String) ≠ "C" by decide]),
      rrfVal_example "A" (1/61 + 1/62) (by norm_num [rrfVal])]
    norm_num
  · rw [rrfVal_example "D" ((1 : ℚ)/63) (by
        norm_num [rrfVal, show ("A" : String) ≠ "D" by decide,
          show ("B" : String) ≠ "D" by decide,
          show ("C" : String) ≠ "D" by decide]),
      rrfVal_example "B" (1/62 + 1/61) (by
        norm_num [rrfVal, show ("A" : String) ≠ "B" by decide])]
    norm_num
  · have hkw : (keyword_search (some blobC1) "q" (4 * 2)).map SearchResult.id
        = ["B", "A", "D"] := by decide
    rw [hybrid_search_ids vecC1 (some blobC1) "q" 4, hkw]
    have hids : vecC1.ids = ["A", "B", "C"] := rfl
    rw [hids, rrfSortedIds_example]

/-- Witness for C1 at the spec's concrete example. -/
theorem rrf_fusion_correct_witness :
    rrfVal (rrfScores ["A", "B", "C"] ["B", "A", "D"]) "A" = 1/61 + 1/62 ∧
    (hybrid_search vecC1 (some blobC1) "q" 4).map SearchResult.id
      = ["A", "B", "C", "D"] := by
  have h := rrf_fusion_correct ["A", "B", "C"] ["B", "A", "D"] 2
    (by decide) (by decide)
  exact ⟨h.2.2.2.2.2.2.1, h.2.2.2.2.2.2.2.2.2.2⟩

/-! ## Claim C6: behaviour with no persisted BM25 index -/

/-- C6 fails as stated: with no persisted BM25 index (`_load_bm25` returns
`None`), `keyword_search` returns the empty result set, but `hybrid_search`
still returns the vector-derived results — here one chunk `A` — rather than
an empty result set. -/
theorem no_bm25_counterexample :
    keyword_search none "budget" 10 = [] ∧
    (hybrid_search ⟨["A"], ["docA"], ["mA"]⟩ none "budget" 10).map
        SearchResult.id = ["A"] := by
  exact ⟨rfl, by decide⟩

/-- C6 (amended): with no persisted BM25 index, `keyword_search` returns
the empty result set, and `hybrid_search` does not fail: it returns the RRF
ranking of the vector result list alone — in particular a nonempty result
set whenever the vector list is nonempty and `top_k > 0`. -/
theorem no_bm25_degraded (vec : VecResults) (q : String) (topK : Nat) :
    keyword_search none q topK = [] ∧
    (hybrid_search vec none q topK).map SearchResult.id
      = rrfSortedIds (rrfScores vec.ids []) topK ∧
    (vec.ids ≠ [] → 0 < topK → hybrid_search vec none q topK ≠ []) := by
  have hkw : keyword_search none q (topK * 2) = [] := rfl
  have hids : (hybrid_search vec none q topK).map SearchResult.id
      = rrfSortedIds (rrfScores vec.ids []) topK := by
    rw [hybrid_search_ids vec none q topK, hkw]
    rfl
  refine ⟨rfl, hids, ?_⟩
  intro hne hk hempty
  have hlen : (rrfSortedIds (rrfScores vec.ids []) topK).length
      = min topK (rrfKeys (rrfScores vec.ids [])).length := by
    rw [rrfSortedIds, List.length_take, (pySortDesc_perm _ _).length_eq]
  rcases List.exists_mem_of_ne_nil vec.ids hne with ⟨x, hx⟩
  have hxkeys : x ∈ rrfKeys (rrfScores vec.ids []) :=
    (rrfKeys_scores_mem vec.ids [] x).mpr (Or.inl hx)
  have hpos : 0 < (rrfKeys (rrfScores vec.ids [])).length :=
    List.length_pos.mpr (List.ne_nil_of_mem hxkeys)
  have : (rrfSortedIds (rrfScores vec.ids []) topK).length ≠ 0 := by
    rw [hlen]
    omega
  rw [← hids] at this
  simp [hempty] at this

/-- Witness for C6: one vector chunk, no BM25 index. -/
theorem no_bm25_degraded_witness :
    keyword_search none "budget" 10 = [] ∧
    hybrid_search ⟨["A"], ["docA"], ["mA"]⟩ none "budget" 10 ≠ [] := by
  have h := no_bm25_degraded ⟨["A"], ["docA"], ["mA"]⟩ "budget" 10
  exact ⟨h.1, h.2.2 (by decide) (by decide)⟩

/-! ## Hash cache persistence (src/repo-search/ingest.py lines 238-248;
identical in src/vector-search/ingest.py lines 119-129)

`load_hash_cache` runs `json.loads` on the file contents with no exception
handling; `save_hash_cache` writes `json.dumps(cache, indent=2)`, a flat
JSON object of string keys and values.  `jsonFlatObj` is a character-level
acceptor for exactly these flat string-to-string objects (escape sequences,
which `json.dumps` only emits for quotes, backslashes and control
characters — none of which occur in relative paths or hex digests — are not
accepted); on any other input it rejects, as `json.loads` raises
`JSONDecodeError` on malformed input. -/

/-- The opening brace character. -/
def lbraceC : Char := Char.ofNat 123

/-- The closing brace character. -/
def rbraceC : Char := Char.ofNat 125

/-- The backslash character. -/
def bslashC : Char := Char.ofNat 92

/-- JSON whitespace. -/
def isJsonWs (c : Char) : Bool := c = ' ' || c = '\t' || c = '\n' || c = '\r'

/-- A character allowed inside an unescaped JSON string literal. -/
def isStrChar (c : Char) : Bool := 32 ≤ c.toNat && c ≠ '"' && c ≠ bslashC

/-- Parser state for a flat JSON object of string keys and values. -/
inductive JState where
  | start
  | afterOpen (acc : List (List Char × List Char))
  | inKey (acc : List (List Char × List Char)) (cur : List Char)
  | afterKey (acc : List (List Char × List Char)) (key : List Char)
  | afterColon (acc : List (List Char × List Char)) (key : List Char)
  | inVal (acc : List (List Char × List Char)) (key : List Char) (cur : List Char)
  | afterVal (acc : List (List Char × List Char))
  | afterComma (acc : List (List Char × List Char))
  | jdone (acc : List (List Char × List Char))
  | jfail
deriving DecidableEq

/-- One character of flat-JSON-object parsing. -/
def jsonStep : JState → Char → JState
  | .start, c =>
    if isJsonWs c then .start else if c = lbraceC then .afterOpen [] else .jfail
  | .afterOpen acc, c =>
    if isJsonWs c then .afterOpen acc
    else if c = rbraceC then .jdone acc
    else if c = '"' then .inKey acc []
    else .jfail
  | .inKey acc cur, c =>
    if c = '"' then .afterKey acc cur.reverse
    else if isStrChar c then .inKey acc (c :: cur)
    else .jfail
  | .afterKey acc key, c =>
    if isJsonWs c then .afterKey acc key
    else if c = ':' then .afterColon acc key
    else .jfail
  | .afterColon acc key, c =>
    if isJsonWs c then .afterColon acc key
    else if c = '"' then .inVal acc key []
    else .jfail
  | .inVal acc key cur, c =>
    if c = '"' then .afterVal (acc ++ [(key, cur.reverse)])
    else if isStrChar c then .inVal acc key (c :: cur)
    else .jfail
  | .afterVal acc, c =>
    if isJsonWs c then .afterVal acc
    else if c = ',' then .afterComma acc
    else if c = rbraceC then .jdone acc
    else .jfail
  | .afterComma acc, c =>
    if isJsonWs c then .afterComma acc
    else if c = '"' then .inKey acc []
    else .jfail
  | .jdone acc, c => if isJsonWs c then .jdone acc else .jfail
  | .jfail, _ => .jfail

/-- Parse a flat JSON object of string keys and values. -/
def jsonFlatObj (s : List Char) : Option (List (List Char × List Char)) :=
  match s.foldl jsonStep .start with
  | .jdone acc => some acc
  | _ => none

/-- Model of `load_hash_cache(cache_path)`: the file contents when the cache file
exists (`none` when absent).  `json.loads` failure surfaces as `.error`
(there is no `try`/`except` in the source). -/
def load_hash_cache (file : Option (List Char)) :
    Except String (List (List Char × List Char)) :=
  match file with
  | none => .ok []
  | some s =>
    match jsonFlatObj s with
    | some m => .ok m
    | none => .error "JSONDecodeError"

/-- A two-space-indented `"key": "value"` line of `json.dumps(..., indent=2)`. -/
def dumpsEntry (k v : List Char) : List Char :=
  ' ' :: ' ' :: '"' :: k ++ '"' :: ':' :: ' ' :: '"' :: v ++ ['"']

/-- Model of `json.dumps(cache, indent=2)` for a flat string-to-string dict. -/
def dumps (m : List (List Char × List Char)) : List Char :=
  match m with
  | [] => [lbraceC, rbraceC]
  | _ =>
    lbraceC :: '\n' ::
      pyJoin [',', '\n'] (m.map fun p => dumpsEntry p.1 p.2) ++ ['\n', rbraceC]

/-- Model of `save_hash_cache(cache_path, cache)`: the bytes written to the cache
file (directory creation is not modelled). -/
def save_hash_cache (m : List (List Char × List Char)) : List Char := dumps m

/-- A string `json.dumps` writes without escape sequences. -/
def goodStr (s : List Char) : Prop := ∀ c ∈ s, isStrChar c = true

lemma foldl_jsonStep_inKey (k : List Char) :
    ∀ (acc : List (List Char × List Char)) (cur : List Char), goodStr k →
      k.foldl jsonStep (.inKey acc cur) = .inKey acc (k.reverse ++ cur) := by
  induction k with
  | nil => intro acc cur _; simp
  | cons c t ih =>
    intro acc cur hg
    have hc : isStrChar c = true := hg c (List.mem_cons_self c t)
    have hq : ¬ c = '"' := by
      intro h
      rw [h] at hc
      exact absurd hc (by decide)
    have hstep : jsonStep (.inKey acc cur) c = .inKey acc (c :: cur) := by
      simp [jsonStep, hq, hc]
    rw [List.foldl_cons, hstep,
      ih acc (c :: cur) (fun x hx => hg x (List.mem_cons_of_mem c hx))]
    simp

lemma foldl_jsonStep_inVal (v : List Char) :
    ∀ (acc : List (List Char × List Char)) (key cur : List Char), goodStr v →
      v.foldl jsonStep (.inVal acc key cur) = .inVal acc key (v.reverse ++ cur) := by
  induction v with
  | nil => intro acc key cur _; simp
  | cons c t ih =>
    intro acc key cur hg
    have hc : isStrChar c = true := hg c (List.mem_cons_self c t)
    have hq : ¬ c = '"' := by
      intro h
      rw [h] at hc
      exact absurd hc (by decide)
    have hstep : jsonStep (.inVal acc key cur) c = .inVal acc key (c :: cur) := by
      simp [jsonStep, hq, hc]
    rw [List.foldl_cons, hstep,
      ih acc key (c :: cur) (fun x hx => hg x (List.mem_cons_of_mem c hx))]
    simp

lemma pyJoin_cons_cons (sep a b : List Char) (rest : List (List Char)) :
    pyJoin sep (a :: b :: rest) = a ++ sep ++ pyJoin sep (b :: rest) := rfl

lemma foldl_jsonStep_entry (k v : List Char) (hgk : goodStr k) (hgv : goodStr v)
    (st : JState) (acc : List (List Char × List Char))
    (hws : jsonStep st ' ' = st) (hq : jsonStep st '"' = .inKey acc []) :
    (dumpsEntry k v).foldl jsonStep st = .afterVal (acc ++ [(k, v)]) := by
  have hshape : dumpsEntry k v
      = (' ' :: ' ' :: '"' :: k) ++ (('"' :: ':' :: ' ' :: '"' :: v) ++ ['"']) := by
    simp [dumpsEntry]
  rw [hshape, List.foldl_append, List.foldl_append]
  have hA : List.foldl jsonStep st (' ' :: ' ' :: '"' :: k)
      = .inKey acc k.reverse := by
    rw [List.foldl_cons, hws, List.foldl_cons, hws, List.foldl_cons, hq,
      foldl_jsonStep_inKey k acc [] hgk, List.append_nil]
  rw [hA]
  have hB : List.foldl jsonStep (JState.inKey acc k.reverse)
      ('"' :: ':' :: ' ' :: '"' :: v) = .inVal acc k v.reverse := by
    rw [List.foldl_cons]
    have e1 : jsonStep (JState.inKey acc k.reverse) '"'
        = .afterKey acc k.reverse.reverse := rfl
    rw [e1, List.reverse_reverse, List.foldl_cons]
    have e2 : jsonStep (JState.afterKey acc k) ':' = .afterColon acc k := rfl
    rw [e2, List.foldl_cons]
    have e3 : jsonStep (JState.afterColon acc k) ' ' = .afterColon acc k := rfl
    rw [e3, List.foldl_cons]
    have e4 : jsonStep (JState.afterColon acc k) '"' = .inVal acc k [] := rfl
    rw [e4, foldl_jsonStep_inVal v acc k [] hgv, List.append_nil]
  rw [hB]
  have hC : List.foldl jsonStep (JState.inVal acc k v.reverse) ['"']
      = .afterVal (acc ++ [(k, v.reverse.reverse)]) := rfl
  rw [hC, List.reverse_reverse]

/-- Entries, each escape-free, of a `json.dumps` object. -/
def goodEntries (m : List (List Char × List Char)) : Prop :=
  ∀ p ∈ m, goodStr p.1 ∧ goodStr p.2

lemma foldl_jsonStep_join (m : List (List Char × List Char)) :
    ∀ (st : JState) (acc : List (List Char × List Char)),
      m ≠ [] → goodEntries m →
      jsonStep st ' ' = st → jsonStep st '"' = .inKey acc [] →
      (pyJoin [',', '\n'] (m.map fun p => dumpsEntry p.1 p.2)).foldl jsonStep st
        = .afterVal (acc ++ m) := by
  induction m with
  | nil => intro st acc h _ _ _; exact absurd rfl h
  | cons p ps ih =>
    intro st acc _ hg hws hq
    rcases hg p (List.mem_cons_self p ps) with ⟨hgk, hgv⟩
    rcases hps : ps with _ | ⟨p2, ps2⟩
    · show (pyJoin [',', '\n'] [dumpsEntry p.1 p.2]).foldl jsonStep st = _
      show (dumpsEntry p.1 p.2).foldl jsonStep st = _
      rw [foldl_jsonStep_entry p.1 p.2 hgk hgv st acc hws hq]
    · rw [← hps]
      have hnil : ps ≠ [] := by
        rw [hps]
        exact List.cons_ne_nil p2 ps2
      obtain ⟨e, es, hps2⟩ :
          ∃ e es, ps.map (fun q => dumpsEntry q.1 q.2) = e :: es := by
        rw [hps, List.map_cons]
        exact ⟨_, _, rfl⟩
      have hjoin : pyJoin [',', '\n'] ((p :: ps).map fun q => dumpsEntry q.1 q.2)
          = dumpsEntry p.1 p.2 ++ ',' :: '\n' ::
              pyJoin [',', '\n'] (ps.map fun q => dumpsEntry q.1 q.2) := by
        rw [List.map_cons, hps2, pyJoin_cons_cons, ← hps2]
        simp
      rw [hjoin, List.foldl_append,
        foldl_jsonStep_entry p.1 p.2 hgk hgv st acc hws hq, List.foldl_cons]
      have e1 : jsonStep (JState.afterVal (acc ++ [p])) ','
          = .afterComma (acc ++ [p]) := rfl
      rw [e1, List.foldl_cons]
      have e2 : jsonStep (JState.afterComma (acc ++ [p])) '\n'
          = .afterComma (acc ++ [p]) := rfl
      rw [e2, ih (.afterComma (acc ++ [p])) (acc ++ [p]) hnil
        (fun q hq' => hg q (List.mem_cons_of_mem p hq')) rfl rfl]
      simp

/-- Saving and re-loading the hash cache round-trips for every mapping whose
keys and values need no JSON escaping. -/
lemma load_save_roundtrip (m : List (List Char × List Char))
    (hg : goodEntries m) :
    load_hash_cache (some (save_hash_cache m)) = .ok m := by
  have hfold : (dumps m).foldl jsonStep .start = .jdone m := by
    rcases hm : m with _ | ⟨p, ps⟩
    · rfl
    · rw [← hm]
      have hnil : m ≠ [] := by
        rw [hm]
        exact List.cons_ne_nil p ps
      have hdump : dumps m = lbraceC :: '\n' ::
          (pyJoin [',', '\n'] (m.map fun q => dumpsEntry q.1 q.2)
            ++ ['\n', rbraceC]) := by
        rw [hm]
        simp [dumps]
      rw [hdump, List.foldl_cons]
      have e0 : jsonStep .start lbraceC = .afterOpen [] := rfl
      rw [e0, List.foldl_cons]
      have e1 : jsonStep (JState.afterOpen []) '\n' = .afterOpen [] := rfl
      rw [e1, List.foldl_append]
      rw [foldl_jsonStep_join m (.afterOpen []) [] hnil hg rfl rfl]
      have e2 : jsonStep (JState.afterVal ([] ++ m)) '\n' = .afterVal ([] ++ m) := rfl
      rw [List.foldl_cons, e2, List.foldl_cons]
      have e3 : jsonStep (JState.afterVal ([] ++ m)) rbraceC = .jdone ([] ++ m) := rfl
      rw [e3, List.nil_append]
      rfl
  simp only [load_hash_cache, save_hash_cache, jsonFlatObj, hfold]

/-- C3 fails as stated: `load_hash_cache` wraps `json.loads` in no
`try`/`except`, so a malformed cache file is not silently recovered as an
empty mapping — the decode error propagates out of the load. -/
theorem load_hash_cache_counterexample :
    load_hash_cache (some "not json".toList) = .error "JSONDecodeError" ∧
    load_hash_cache (some "not json".toList) ≠ .ok [] := by
  refine ⟨rfl, ?_⟩
  intro h
  rw [show load_hash_cache (some "not json".toList)
    = .error "JSONDecodeError" from rfl] at h
  exact Except.noConfusion h

/-- C3 (amended): loading the hash cache returns the persisted
path-to-hash mapping when the cache file exists and is well-formed (in
particular, it round-trips what `save_hash_cache` persists), and returns the
empty mapping when the file is absent; but a malformed cache file raises a
JSON decode error that propagates out of the load — there is no silent
recovery. -/
theorem load_hash_cache_spec (m : List (List Char × List Char))
    (hg : goodEntries m) :
    load_hash_cache none = .ok [] ∧
    load_hash_cache (some (save_hash_cache m)) = .ok m ∧
    load_hash_cache (some "not json".toList) = .error "JSONDecodeError" :=
  ⟨rfl, load_save_roundtrip m hg, rfl⟩

/-- Witness for C3: a one-entry cache file round-trips. -/
theorem load_hash_cache_spec_witness :
    load_hash_cache (some (save_hash_cache
      [("a.md".toList, "9e107d9d372bb6826bd81d3542a419d6".toList)])) =
      .ok [("a.md".toList, "9e107d9d372bb6826bd81d3542a419d6".toList)] :=
  (load_hash_cache_spec
    [("a.md".toList, "9e107d9d372bb6826bd81d3542a419d6".toList)]
    (by unfold goodEntries goodStr; decide)).2.1

/-! ## Ingestion orchestrator (src/repo-search/ingest.py lines 251-423)

External collaborators — the md5 digest (`compute_file_hash`), text
extraction (`extract_text`, which may raise), the chunker (as a function of
content and file, combining `chunk_text` with the per-format parameters) and
the metadata title — enter as parameters.  The ChromaDB collection is the
list of stored chunks in insertion order; `collection.get(where=...)`,
`collection.delete(ids=...)` and `collection.add(...)` become
`storeIdsWhere`, `storeDelete` and list append. -/

/-- A discovered file: its path relative to the repo root and its bytes. -/
structure SrcFile where
  relPath : String
  bytes : String
deriving DecidableEq, Repr

/-- A stored chunk: id `{rel_path}::chunk_{j}`, document text, and the
`file_path` metadata field the deletion filter uses. -/
structure Chunk where
  id : String
  doc : String
  filePath : String
deriving DecidableEq, Repr

/-- Model of `collection.get(where={"file_path": p})["ids"]`. -/
def storeIdsWhere (store : List Chunk) (p : String) : List String :=
  (store.filter (fun c => c.filePath = p)).map Chunk.id

/-- Model of `collection.delete(ids=ids)`. -/
def storeDelete (store : List Chunk) (ids : List String) : List Chunk :=
  store.filter (fun c => ¬ c.id ∈ ids)

/-- The batch built by the `for j, chunk in enumerate(chunks)` loop:
ids `{rel_path}::chunk_{j}` with the chunk text and file path. -/
def mkChunks (p : String) (chunks : List String) : List Chunk :=
  chunks.enum.map (fun e => ⟨p ++ "::chunk_" ++ toString e.1, e.2, p⟩)

/-- Model of `hash_cache.get(rel_path)` on the dict modelled as an assoc list. -/
def cacheLookup : List (String × String) → String → Option String
  | [], _ => none
  | (k, v) :: t, p => if k = p then some v else cacheLookup t p

/-- Model of `hash_cache[rel_path] = file_hash`: dict assignment (in-place update of
an existing key, else append; insertion order preserved). -/
def cacheInsert : List (String × String) → String → String → List (String × String)
  | [], k, v => [(k, v)]
  | (k', v') :: t, k, v =>
    if k' = k then (k, v) :: t else (k', v') :: cacheInsert t k v

/-- The mutable state of the per-file loop. -/
structure RunState where
  store : List Chunk
  cache : List (String × String)
  totalChunks : Nat
  skipped : Nat
deriving Repr

section Ingest

variable (hashFn : String → String)
variable (extract : SrcFile → Except String String)
variable (chunkOf : String → SrcFile → List String)
variable (titleOf : String → SrcFile → String)

/-- The title-prefix loop (ingest.py lines 352-362): skipped when the title
is empty (`if title:`), otherwise each chunk gets `[title]\n\n` prepended
unless the title already occurs in its first `len(title)+50` characters. -/
def titleEnrichAllS (title : String) (chunks : List String) : List String :=
  if title.isEmpty then chunks
  else chunks.map (fun c => (titleEnrich title.toList c.toList).asString)

/-- The chunk list for one file as stored: chunked, then title-enriched. -/
def enrichedChunks (content : String) (f : SrcFile) : List String :=
  titleEnrichAllS (titleOf content f) (chunkOf content f)

/-- The body of `for i, (f, file_hash) in enumerate(files_to_process, 1)`
(ingest.py lines 337-405): extract (skip on failure), chunk and enrich,
skip empty, delete this path's old chunks, add the new batch, update the
hash-cache entry. -/
def processFile (f : SrcFile) (h : String) (st : RunState) : RunState :=
  match extract f with
  | .error _ => { st with skipped := st.skipped + 1 }
  | .ok content =>
    let chunks := enrichedChunks chunkOf titleOf content f
    if chunks.isEmpty then st
    else
      { store := storeDelete st.store (storeIdsWhere st.store f.relPath)
          ++ mkChunks f.relPath chunks,
        cache := cacheInsert st.cache f.relPath h,
        totalChunks := st.totalChunks + chunks.length,
        skipped := st.skipped }

/-- The whole per-file loop. -/
def runFold (l : List (SrcFile × String)) (st : RunState) : RunState :=
  l.foldl (fun st fh => processFile extract chunkOf titleOf fh.1 fh.2 st) st

/-- The classification loop (ingest.py lines 282-295): a file is unchanged
when not forced and its hash matches the cache; otherwise it is NEW or
CHANGED and goes on `files_to_process` paired with its hash. -/
def classifyToProcess (cache : List (String × String)) (force : Bool)
    (files : List SrcFile) : List (SrcFile × String) :=
  files.filterMap (fun f =>
    if ¬ force ∧ cacheLookup cache f.relPath = some (hashFn f.bytes) then none
    else some (f, hashFn f.bytes))

/-- Modelled from the spec: the BM25 rebuild is absent from
src/repo-search/ingest.py (only tests/test_hybrid_search.py and the loader
`_load_bm25` in query.py witness it).  Spec §4.5/§3: after all files, the
BM25 index is rebuilt from the full current chunk corpus — not
incrementally merged — and persisted as a single blob of the fitted scorer
(the external fitting routine is the parameter `fit`) plus parallel arrays
of chunk ids, documents and metadatas. -/
def buildBM25 (fit : List String → List String → List ℚ)
    (store : List Chunk) : BM25Blob :=
  { getScores := fit (store.map Chunk.doc),
    ids := store.map Chunk.id,
    documents := store.map Chunk.doc,
    metadatas := store.map Chunk.filePath }

/-- The persisted outcome of one ingestion run, plus the run report. -/
structure IngestOut where
  store : List Chunk
  cacheFile : List (String × String)
  bm25 : Option BM25Blob
  filesToProcess : Nat
  unchanged : Nat
  skipped : Nat
  totalChunks : Nat

/-- Model of `ingest(repo_root, db_path, dry_run, force, ...)` over the persisted
state `(store0, cacheFile0, bm0)`: early return when no files; load the
cache (empty under `force`); classify; dry-run and nothing-to-update early
returns perform no writes; otherwise run the per-file loop, rebuild the
BM25 blob from the final corpus, and persist the updated hash cache. -/
def ingest (fit : List String → List String → List ℚ) (files : List SrcFile)
    (store0 : List Chunk) (cacheFile0 : List (String × String))
    (bm0 : Option BM25Blob) (dryRun force : Bool) : IngestOut :=
  if files.isEmpty then ⟨store0, cacheFile0, bm0, 0, 0, 0, 0⟩
  else
    let cache := if force then [] else cacheFile0
    let toProcess := classifyToProcess hashFn cache force files
    if dryRun then
      ⟨store0, cacheFile0, bm0, toProcess.length,
        files.length - toProcess.length, 0, 0⟩
    else if toProcess.isEmpty then
      ⟨store0, cacheFile0, bm0, 0, files.length - toProcess.length, 0, 0⟩
    else
      let final := runFold extract chunkOf titleOf toProcess ⟨store0, cache, 0, 0⟩
      ⟨final.store, final.cache, some (buildBM25 fit final.store),
        toProcess.length, files.length - toProcess.length,
        final.skipped, final.totalChunks⟩

end Ingest

/-- Modelled from the spec: `cmd_prune` is absent from
src/repo-search/query.py (only tests/test_prune.py calls it).  Spec §4.6:
scan the embedding store's indexed file paths, compare against the live
filesystem (`existsOnDisk`), delete all chunks whose owning file no longer
exists, and return the count removed. -/
def cmd_prune (store : List Chunk) (existsOnDisk : String → Bool) :
    List Chunk × Nat :=
  let orphaned := store.filter (fun c => ¬ existsOnDisk c.filePath)
  (store.filter (fun c => existsOnDisk c.filePath), orphaned.length)

section IngestLemmas

variable (hashFn : String → String)
variable (extract : SrcFile → Except String String)
variable (chunkOf : String → SrcFile → List String)
variable (titleOf : String → SrcFile → String)

lemma cacheLookup_insert_self (c : List (String × String)) (k v : String) :
    cacheLookup (cacheInsert c k v) k = some v := by
  induction c with
  | nil => simp [cacheInsert, cacheLookup]
  | cons p t ih =>
    rcases p with ⟨k', v'⟩
    by_cases h : k' = k
    · simp [cacheInsert, h, cacheLookup]
    · simp [cacheInsert, h, cacheLookup, ih]

lemma cacheLookup_insert_ne (c : List (String × String)) (k v p : String)
    (hne : k ≠ p) :
    cacheLookup (cacheInsert c k v) p = cacheLookup c p := by
  induction c with
  | nil => simp [cacheInsert, cacheLookup, hne]
  | cons q t ih =>
    rcases q with ⟨k', v'⟩
    by_cases h : k' = k
    · subst h
      simp [cacheInsert, cacheLookup, hne]
    · by_cases hp : k' = p
      · have hpk : ¬ p = k := fun hh => hne hh.symm
        simp [cacheInsert, h, cacheLookup, hp, hpk]
      · simp [cacheInsert, h, cacheLookup, hp, ih]

lemma processFile_error (f : SrcFile) (h : String) (st : RunState) (e : String)
    (hfail : extract f = .error e) :
    processFile extract chunkOf titleOf f h st
      = { st with skipped := st.skipped + 1 } := by
  unfold processFile
  rw [hfail]

lemma processFile_empty (f : SrcFile) (h : String) (st : RunState)
    (content : String) (hok : extract f = .ok content)
    (hemp : enrichedChunks chunkOf titleOf content f = []) :
    processFile extract chunkOf titleOf f h st = st := by
  unfold processFile
  rw [hok]
  simp [hemp]

lemma processFile_write (f : SrcFile) (h : String) (st : RunState)
    (content : String) (hok : extract f = .ok content)
    (hne : enrichedChunks chunkOf titleOf content f ≠ []) :
    processFile extract chunkOf titleOf f h st =
      { store := storeDelete st.store (storeIdsWhere st.store f.relPath)
          ++ mkChunks f.relPath (enrichedChunks chunkOf titleOf content f),
        cache := cacheInsert st.cache f.relPath h,
        totalChunks := st.totalChunks
          + (enrichedChunks chunkOf titleOf content f).length,
        skipped := st.skipped } := by
  unfold processFile
  rw [hok]
  simp [List.isEmpty_iff, hne]

lemma processFile_cache_other (f : SrcFile) (h : String) (st : RunState)
    (p : String) (hp : f.relPath ≠ p) :
    cacheLookup (processFile extract chunkOf titleOf f h st).cache p
      = cacheLookup st.cache p := by
  unfold processFile
  rcases hext : extract f with e | content
  · rfl
  · dsimp only
    by_cases hemp : (enrichedChunks chunkOf titleOf content f).isEmpty
    · simp [hemp]
    · simp [hemp, cacheLookup_insert_ne _ _ _ _ hp]

lemma runFold_cons (x : SrcFile × String) (l : List (SrcFile × String))
    (st : RunState) :
    runFold extract chunkOf titleOf (x :: l) st
      = runFold extract chunkOf titleOf l
          (processFile extract chunkOf titleOf x.1 x.2 st) := rfl

lemma runFold_append (l₁ l₂ : List (SrcFile × String)) (st : RunState) :
    runFold extract chunkOf titleOf (l₁ ++ l₂) st
      = runFold extract chunkOf titleOf l₂
          (runFold extract chunkOf titleOf l₁ st) := by
  unfold runFold
  rw [List.foldl_append]

lemma runFold_cache_other (l : List (SrcFile × String)) (p : String)
    (hp : ∀ x ∈ l, x.1.relPath ≠ p) :
    ∀ st : RunState,
      cacheLookup (runFold extract chunkOf titleOf l st).cache p
        = cacheLookup st.cache p := by
  induction l with
  | nil => intro st; rfl
  | cons x t ih =>
    intro st
    rw [runFold_cons, ih (fun y hy => hp y (List.mem_cons_of_mem x hy)),
      processFile_cache_other extract chunkOf titleOf x.1 x.2 st p
        (hp x (List.mem_cons_self x t))]

lemma runFold_cache_processed (l : List (SrcFile × String)) :
    ∀ (st : RunState) (f : SrcFile) (h : String), (f, h) ∈ l →
      (l.map (fun x => x.1.relPath)).Nodup →
      (∀ g ∈ l, ∃ content, extract g.1 = .ok content ∧
        enrichedChunks chunkOf titleOf content g.1 ≠ []) →
      cacheLookup (runFold extract chunkOf titleOf l st).cache f.relPath
        = some h := by
  induction l with
  | nil => intro st f h hmem; exact absurd hmem (List.not_mem_nil _)
  | cons x t ih =>
    intro st f h hmem hnd hok
    rcases List.mem_cons.mp hmem with heq | hmem'
    · subst heq
      rw [runFold_cons]
      rcases hok (f, h) (List.mem_cons_self _ t) with ⟨content, hokc, hne⟩
      rw [processFile_write extract chunkOf titleOf f h st content hokc hne]
      have hrest : ∀ x ∈ t, x.1.relPath ≠ f.relPath := by
        intro y hy heqp
        have hmem2 : y.1.relPath ∈ t.map (fun x => x.1.relPath) :=
          List.mem_map.mpr ⟨y, hy, rfl⟩
        rw [heqp] at hmem2
        exact (List.nodup_cons.mp hnd).1 hmem2
      rw [runFold_cache_other extract chunkOf titleOf t f.relPath hrest]
      exact cacheLookup_insert_self st.cache f.relPath h
    · rw [runFold_cons]
      exact ih _ f h hmem' (List.nodup_cons.mp hnd).2
        (fun g hg => hok g (List.mem_cons_of_mem x hg))

lemma classify_mem (cache : List (String × String)) (force : Bool)
    (files : List SrcFile) (f : SrcFile) (h : String)
    (hmem : (f, h) ∈ classifyToProcess hashFn cache force files) :
    f ∈ files ∧ h = hashFn f.bytes := by
  unfold classifyToProcess at hmem
  rcases List.mem_filterMap.mp hmem with ⟨g, hg, hsome⟩
  by_cases hc : ¬ force ∧ cacheLookup cache g.relPath = some (hashFn g.bytes)
  · rw [if_pos hc] at hsome
    exact absurd hsome (Option.noConfusion)
  · rw [if_neg hc] at hsome
    have h' := Option.some_inj.mp hsome
    have hg' : g = f := congrArg Prod.fst h'
    have hh' : hashFn g.bytes = h := congrArg Prod.snd h'
    subst hg'
    exact ⟨hg, hh'.symm⟩

lemma classify_eq_nil_iff (cache : List (String × String))
    (files : List SrcFile) :
    classifyToProcess hashFn cache false files = [] ↔
      ∀ f ∈ files, cacheLookup cache f.relPath = some (hashFn f.bytes) := by
  unfold classifyToProcess
  rw [List.filterMap_eq_nil_iff]
  constructor
  · intro hall f hf
    have := hall f hf
    by_cases hc : ¬ (false : Bool) = true ∧
        cacheLookup cache f.relPath = some (hashFn f.bytes)
    · exact hc.2
    · rw [if_neg hc] at this
      exact absurd this (Option.noConfusion)
  · intro hall f hf
    rw [if_pos ⟨by simp, hall f hf⟩]

lemma classify_not_mem (cache : List (String × String)) (files : List SrcFile)
    (f : SrcFile) (hf : f ∈ files)
    (h : (f, hashFn f.bytes) ∉ classifyToProcess hashFn cache false files) :
    cacheLookup cache f.relPath = some (hashFn f.bytes) := by
  by_contra hne
  apply h
  unfold classifyToProcess
  refine List.mem_filterMap.mpr ⟨f, hf, ?_⟩
  rw [if_neg (fun hc => hne hc.2)]

lemma classify_paths_sublist (cache : List (String × String)) (force : Bool)
    (files : List SrcFile) :
    ((classifyToProcess hashFn cache force files).map
        (fun x => x.1.relPath)).Sublist (files.map SrcFile.relPath) := by
  induction files with
  | nil => simp [classifyToProcess]
  | cons f t ih =>
    unfold classifyToProcess
    rw [List.filterMap_cons]
    unfold classifyToProcess at ih
    by_cases hc : ¬ force = true ∧ cacheLookup cache f.relPath = some (hashFn f.bytes)
    · rw [if_pos hc]
      exact ih.trans (List.sublist_cons_self _ _)
    · rw [if_neg hc, List.map_cons]
      exact ih.cons₂ f.relPath

lemma ingest_no_files (fit : List String → List String → List ℚ)
    (store0 : List Chunk) (cacheFile0 : List (String × String))
    (bm0 : Option BM25Blob) (dryRun force : Bool) :
    ingest hashFn extract chunkOf titleOf fit [] store0 cacheFile0 bm0
        dryRun force = ⟨store0, cacheFile0, bm0, 0, 0, 0, 0⟩ := rfl

lemma ingest_no_update (fit : List String → List String → List ℚ)
    (files : List SrcFile) (store0 : List Chunk)
    (cacheFile0 : List (String × String)) (bm0 : Option BM25Blob)
    (hne : files.isEmpty = false)
    (htp : classifyToProcess hashFn cacheFile0 false files = []) :
    ingest hashFn extract chunkOf titleOf fit files store0 cacheFile0 bm0
        false false = ⟨store0, cacheFile0, bm0, 0, files.length, 0, 0⟩ := by
  unfold ingest
  rw [hne]
  simp only [Bool.false_eq_true, if_false, htp]
  rfl

lemma ingest_write_phase (fit : List String → List String → List ℚ)
    (files : List SrcFile) (store0 : List Chunk)
    (cacheFile0 : List (String × String)) (bm0 : Option BM25Blob)
    (tp : List (SrcFile × String))
    (hne : files.isEmpty = false)
    (htp : classifyToProcess hashFn cacheFile0 false files = tp)
    (htpne : tp ≠ []) :
    ingest hashFn extract chunkOf titleOf fit files store0 cacheFile0 bm0
        false false =
      ⟨(runFold extract chunkOf titleOf tp ⟨store0, cacheFile0, 0, 0⟩).store,
       (runFold extract chunkOf titleOf tp ⟨store0, cacheFile0, 0, 0⟩).cache,
       some (buildBM25 fit
         (runFold extract chunkOf titleOf tp ⟨store0, cacheFile0, 0, 0⟩).store),
       tp.length, files.length - tp.length,
       (runFold extract chunkOf titleOf tp ⟨store0, cacheFile0, 0, 0⟩).skipped,
       (runFold extract chunkOf titleOf tp ⟨store0, cacheFile0, 0, 0⟩).totalChunks⟩ := by
  unfold ingest
  rw [hne]
  simp only [Bool.false_eq_true, if_false, htp]
  rw [if_neg (by simpa [List.isEmpty_iff] using htpne)]

end IngestLemmas

/-- C9: an extraction failure is per-file and non-fatal: the file is
counted as skipped with the store and hash cache untouched, and the loop
continues over the remaining files; moreover, a file's hash-cache entry
changes only in the branch that has stored that file's chunks. -/
theorem extraction_failure_isolated
    (extract : SrcFile → Except String String)
    (chunkOf : String → SrcFile → List String)
    (titleOf : String → SrcFile → String) :
    (∀ (f : SrcFile) (h : String) (st : RunState) (e : String),
        extract f = .error e →
        processFile extract chunkOf titleOf f h st
          = { st with skipped := st.skipped + 1 }) ∧
    (∀ (pre post : List (SrcFile × String)) (f : SrcFile) (h : String)
        (st : RunState) (e : String), extract f = .error e →
        runFold extract chunkOf titleOf (pre ++ (f, h) :: post) st
          = runFold extract chunkOf titleOf post
              { runFold extract chunkOf titleOf pre st with
                  skipped :=
                    (runFold extract chunkOf titleOf pre st).skipped + 1 }) ∧
    (∀ (f : SrcFile) (h : String) (st : RunState),
        (processFile extract chunkOf titleOf f h st).cache ≠ st.cache →
        ∃ content, extract f = .ok content ∧
          enrichedChunks chunkOf titleOf content f ≠ [] ∧
          (processFile extract chunkOf titleOf f h st).cache
            = cacheInsert st.cache f.relPath h ∧
          ∀ c ∈ mkChunks f.relPath (enrichedChunks chunkOf titleOf content f),
            c ∈ (processFile extract chunkOf titleOf f h st).store) := by
  refine ⟨processFile_error extract chunkOf titleOf, ?_, ?_⟩
  · intro pre post f h st e hfail
    rw [runFold_append, runFold_cons,
      processFile_error extract chunkOf titleOf f h _ e hfail]
  · intro f h st hcache
    rcases hext : extract f with e | content
    · rw [processFile_error extract chunkOf titleOf f h st e hext] at hcache
      exact absurd rfl hcache
    · by_cases hemp : enrichedChunks chunkOf titleOf content f = []
      · rw [processFile_empty extract chunkOf titleOf f h st content hext hemp]
          at hcache
        exact absurd rfl hcache
      · refine ⟨content, rfl, hemp, ?_, ?_⟩
        · rw [processFile_write extract chunkOf titleOf f h st content hext hemp]
        · intro c hc
          rw [processFile_write extract chunkOf titleOf f h st content hext hemp]
          exact List.mem_append_right _ hc

/-- Witness for C9: a file whose extraction fails is recorded as skipped
and leaves the state untouched. -/
theorem extraction_failure_isolated_witness :
    processFile
        (fun f => if f.relPath = "bad.pdf"
          then Except.error "parse" else Except.ok f.bytes)
        (fun c _ => [c]) (fun _ _ => "")
        ⟨"bad.pdf", "x"⟩ "h0" ⟨[], [], 0, 0⟩
      = ⟨[], [], 0, 1⟩ :=
  (extraction_failure_isolated
      (fun f => if f.relPath = "bad.pdf"
        then Except.error "parse" else Except.ok f.bytes)
      (fun c _ => [c]) (fun _ _ => "")).1
    ⟨"bad.pdf", "x"⟩ "h0" ⟨[], [], 0, 0⟩ "parse" rfl

lemma classify_single (hashFn : String → String)
    (cache : List (String × String)) (files : List SrcFile) (f : SrcFile)
    (hf : f ∈ files) (hnd : (files.map SrcFile.relPath).Nodup)
    (hch : cacheLookup cache f.relPath ≠ some (hashFn f.bytes))
    (hothers : ∀ g ∈ files, g.relPath ≠ f.relPath →
        cacheLookup cache g.relPath = some (hashFn g.bytes)) :
    classifyToProcess hashFn cache false files = [(f, hashFn f.bytes)] := by
  induction files with
  | nil => cases hf
  | cons g t ih =>
    rcases List.mem_cons.mp hf with rfl | hft
    · have htail : ∀ x ∈ t, cacheLookup cache x.relPath
          = some (hashFn x.bytes) := by
        intro x hx
        have hne : x.relPath ≠ f.relPath := by
          intro heq
          have hmem2 : x.relPath ∈ t.map SrcFile.relPath :=
            List.mem_map.mpr ⟨x, hx, rfl⟩
          rw [heq] at hmem2
          exact (List.nodup_cons.mp hnd).1 hmem2
        exact hothers x (List.mem_cons_of_mem f hx) hne
      have htnil : classifyToProcess hashFn cache false t = [] :=
        (classify_eq_nil_iff hashFn cache t).mpr htail
      unfold classifyToProcess at htnil ⊢
      rw [List.filterMap_cons, if_neg (fun hc => hch hc.2), htnil]
    · have hg_ne : g.relPath ≠ f.relPath := by
        intro heq
        have hmem2 : f.relPath ∈ t.map SrcFile.relPath :=
          List.mem_map.mpr ⟨f, hft, rfl⟩
        rw [← heq] at hmem2
        exact (List.nodup_cons.mp hnd).1 hmem2
      have hgu : cacheLookup cache g.relPath = some (hashFn g.bytes) :=
        hothers g (List.mem_cons_self g t) hg_ne
      have := ih hft (List.nodup_cons.mp hnd).2
        (fun x hx hxne => hothers x (List.mem_cons_of_mem g hx) hxne)
      unfold classifyToProcess at this ⊢
      rw [List.filterMap_cons, if_pos ⟨by simp, hgu⟩, this]

/-- C10: for a new/changed file whose retained chunk list is empty after
the minimum-length filter, ingestion performs no writes for that file — the
per-file step is the identity, previously stored chunks under its path
survive, and its hash-cache entry is not recorded — so on every subsequent
run the file is classified as new/changed again (never unchanged) and is
re-extracted and re-chunked. -/
theorem empty_chunks_no_writes (hashFn : String → String)
    (extract : SrcFile → Except String String)
    (chunkOf : String → SrcFile → List String)
    (titleOf : String → SrcFile → String) :
    (∀ (f : SrcFile) (h : String) (st : RunState) (content : String),
        extract f = .ok content →
        enrichedChunks chunkOf titleOf content f = [] →
        processFile extract chunkOf titleOf f h st = st) ∧
    (∀ (fit : List String → List String → List ℚ) (files : List SrcFile)
        (store0 : List Chunk) (cacheFile0 : List (String × String))
        (bm0 : Option BM25Blob) (f : SrcFile) (content : String),
        f ∈ files → (files.map SrcFile.relPath).Nodup →
        extract f = .ok content →
        enrichedChunks chunkOf titleOf content f = [] →
        cacheLookup cacheFile0 f.relPath ≠ some (hashFn f.bytes) →
        (∀ g ∈ files, g.relPath ≠ f.relPath →
            cacheLookup cacheFile0 g.relPath = some (hashFn g.bytes)) →
        (ingest hashFn extract chunkOf titleOf fit files store0 cacheFile0
            bm0 false false).store = store0 ∧
        (ingest hashFn extract chunkOf titleOf fit files store0 cacheFile0
            bm0 false false).cacheFile = cacheFile0 ∧
        (f, hashFn f.bytes) ∈ classifyToProcess hashFn
          (ingest hashFn extract chunkOf titleOf fit files store0 cacheFile0
            bm0 false false).cacheFile false files) := by
  refine ⟨processFile_empty extract chunkOf titleOf, ?_⟩
  intro fit files store0 cacheFile0 bm0 f content hf hnd hok hemp hch hothers
  have hne : files.isEmpty = false := by
    cases files with
    | nil => cases hf
    | cons g t => rfl
  have htp : classifyToProcess hashFn cacheFile0 false files
      = [(f, hashFn f.bytes)] :=
    classify_single hashFn cacheFile0 files f hf hnd hch hothers
  have hrun : runFold extract chunkOf titleOf [(f, hashFn f.bytes)]
      ⟨store0, cacheFile0, 0, 0⟩ = ⟨store0, cacheFile0, 0, 0⟩ := by
    rw [runFold_cons]
    rw [processFile_empty extract chunkOf titleOf f (hashFn f.bytes) _
      content hok hemp]
    rfl
  rw [ingest_write_phase hashFn extract chunkOf titleOf fit files store0
    cacheFile0 bm0 [(f, hashFn f.bytes)] hne htp (List.cons_ne_nil _ _), hrun]
  refine ⟨rfl, rfl, ?_⟩
  rw [htp]
  exact List.mem_cons_self _ _

/-- Witness for C10: a 10-character note yields no chunks, so ingesting it
writes nothing and it is reclassified as NEW on the next run. -/
theorem empty_chunks_no_writes_witness :
    (ingest (fun s => s) (fun f => Except.ok f.bytes)
        (fun c f => chunk_text true (fun s => [s]) c.toList |>.map List.asString)
        (fun _ _ => "") (fun _ _ => []) [⟨"note.md", "short note"⟩]
        [] [] none false false).store = [] ∧
    (ingest (fun s => s) (fun f => Except.ok f.bytes)
        (fun c f => chunk_text true (fun s => [s]) c.toList |>.map List.asString)
        (fun _ _ => "") (fun _ _ => []) [⟨"note.md", "short note"⟩]
        [] [] none false false).cacheFile = [] := by
  have h := (empty_chunks_no_writes (fun s => s) (fun f => Except.ok f.bytes)
      (fun c f => chunk_text true (fun s => [s]) c.toList |>.map List.asString)
      (fun _ _ => "")).2
    (fun _ _ => []) [⟨"note.md", "short note"⟩] [] [] none
    ⟨"note.md", "short note"⟩ "short note"
    (List.mem_cons_self _ _) (by decide) rfl (by decide)
    (by decide) (by intro g hg hgne; fin_cases hg <;> simp_all)
  exact ⟨h.1, h.2.1⟩

/-- After a successful write phase, every discovered file's cache entry
holds its current hash. -/
lemma ingest_cache_current (hashFn : String → String)
    (extract : SrcFile → Except String String)
    (chunkOf : String → SrcFile → List String)
    (titleOf : String → SrcFile → String)
    (files : List SrcFile) (cacheFile0 : List (String × String))
    (st0 : RunState) (hst : st0.cache = cacheFile0)
    (hnd : (files.map SrcFile.relPath).Nodup)
    (hok : ∀ f ∈ files, ∃ content, extract f = .ok content ∧
        enrichedChunks chunkOf titleOf content f ≠ []) :
    ∀ f ∈ files,
      cacheLookup (runFold extract chunkOf titleOf
          (classifyToProcess hashFn cacheFile0 false files) st0).cache f.relPath
        = some (hashFn f.bytes) := by
  intro f hf
  by_cases hmem : (f, hashFn f.bytes)
      ∈ classifyToProcess hashFn cacheFile0 false files
  · have hndtp : ((classifyToProcess hashFn cacheFile0 false files).map
        (fun x => x.1.relPath)).Nodup :=
      (classify_paths_sublist hashFn cacheFile0 false files).nodup hnd
    have hoktp : ∀ g ∈ classifyToProcess hashFn cacheFile0 false files,
        ∃ content, extract g.1 = .ok content ∧
          enrichedChunks chunkOf titleOf content g.1 ≠ [] := by
      intro g hg
      exact hok g.1 (classify_mem hashFn cacheFile0 false files g.1 g.2
        (by rcases g with ⟨g1, g2⟩; exact hg)).1
    exact runFold_cache_processed extract chunkOf titleOf _ st0 f
      (hashFn f.bytes) hmem hndtp hoktp
  · have hunch : cacheLookup cacheFile0 f.relPath = some (hashFn f.bytes) :=
      classify_not_mem hashFn cacheFile0 files f hf hmem
    have hother : ∀ x ∈ classifyToProcess hashFn cacheFile0 false files,
        x.1.relPath ≠ f.relPath := by
      intro x hx heq
      rcases classify_mem hashFn cacheFile0 false files x.1 x.2
        (by rcases x with ⟨x1, x2⟩; exact hx) with ⟨hx1, hx2⟩
      have : x.1 = f := List.inj_on_of_nodup_map hnd hx1 hf heq
      apply hmem
      rw [← this, ← hx2]
      rcases x with ⟨x1, x2⟩
      exact hx
    rw [runFold_cache_other extract chunkOf titleOf _ f.relPath hother st0, hst]
    exact hunch

/-- C2 (amended): provided every discovered file extracts successfully
and yields a nonempty enriched chunk list, running ingestion twice in a row
with no source changes is idempotent: the second run classifies every file
as unchanged and processes zero files, and the stored chunks — hence the
chunk ids and the total chunk count — are identical after the two runs. -/
theorem ingest_idempotent (hashFn : String → String)
    (extract : SrcFile → Except String String)
    (chunkOf : String → SrcFile → List String)
    (titleOf : String → SrcFile → String)
    (fit : List String → List String → List ℚ)
    (files : List SrcFile) (store0 : List Chunk)
    (cacheFile0 : List (String × String)) (bm0 : Option BM25Blob)
    (hnd : (files.map SrcFile.relPath).Nodup)
    (hok : ∀ f ∈ files, ∃ content, extract f = .ok content ∧
        enrichedChunks chunkOf titleOf content f ≠ []) :
    (ingest hashFn extract chunkOf titleOf fit files
        (ingest hashFn extract chunkOf titleOf fit files store0 cacheFile0
          bm0 false false).store
        (ingest hashFn extract chunkOf titleOf fit files store0 cacheFile0
          bm0 false false).cacheFile
        (ingest hashFn extract chunkOf titleOf fit files store0 cacheFile0
          bm0 false false).bm25 false false).filesToProcess = 0 ∧
    (ingest hashFn extract chunkOf titleOf fit files
        (ingest hashFn extract chunkOf titleOf fit files store0 cacheFile0
          bm0 false false).store
        (ingest hashFn extract chunkOf titleOf fit files store0 cacheFile0
          bm0 false false).cacheFile
        (ingest hashFn extract chunkOf titleOf fit files store0 cacheFile0
          bm0 false false).bm25 false false).unchanged = files.length ∧
    (ingest hashFn extract chunkOf titleOf fit files
        (ingest hashFn extract chunkOf titleOf fit files store0 cacheFile0
          bm0 false false).store
        (ingest hashFn extract chunkOf titleOf fit files store0 cacheFile0
          bm0 false false).cacheFile
        (ingest hashFn extract chunkOf titleOf fit files store0 cacheFile0
          bm0 false false).bm25 false false).store
      = (ingest hashFn extract chunkOf titleOf fit files store0 cacheFile0
          bm0 false false).store := by
  rcases hfe : files.isEmpty with hemp | hne
  case true =>
    have hfiles : files = [] := List.isEmpty_iff.mp hfe
    subst hfiles
    exact ⟨rfl, rfl, rfl⟩
  case false =>
    have hall2 : ∀ f ∈ files,
        cacheLookup (ingest hashFn extract chunkOf titleOf fit files store0
          cacheFile0 bm0 false false).cacheFile f.relPath
          = some (hashFn f.bytes) := by
      rcases htp : classifyToProcess hashFn cacheFile0 false files
        with _ | ⟨x, xs⟩
      · rw [ingest_no_update hashFn extract chunkOf titleOf fit files store0
          cacheFile0 bm0 hfe htp]
        exact (classify_eq_nil_iff hashFn cacheFile0 files).mp htp
      · rw [ingest_write_phase hashFn extract chunkOf titleOf fit files store0
          cacheFile0 bm0 (x :: xs) hfe htp (List.cons_ne_nil x xs), ← htp]
        exact ingest_cache_current hashFn extract chunkOf titleOf files
          cacheFile0 ⟨store0, cacheFile0, 0, 0⟩ rfl hnd hok
    have htp2 : classifyToProcess hashFn
        (ingest hashFn extract chunkOf titleOf fit files store0 cacheFile0
          bm0 false false).cacheFile false files = [] :=
      (classify_eq_nil_iff hashFn _ files).mpr hall2
    rw [ingest_no_update hashFn extract chunkOf titleOf fit files _ _ _
      hfe htp2]
    exact ⟨rfl, rfl, rfl⟩

/-- Extraction instance for the C2 scenario: markdown read verbatim. -/
def extractC2 : SrcFile → Except String String := fun f => Except.ok f.bytes

/-- Chunker instance for the C2 scenario: `chunk_text` with the
single-chunk splitter (a document shorter than `chunk_size` yields one
chunk). -/
def chunkC2 : String → SrcFile → List String :=
  fun c _ => (chunk_text true (fun s => [s]) c.toList).map List.asString

/-- Title for the C2 scenario (no `# ` heading, empty title). -/
def titleC2 : String → SrcFile → String := fun _ _ => ""

/-- BM25 fitting stand-in for the C2 scenario. -/
def fitC2 : List String → List String → List ℚ := fun _ _ => []

/-- First ingestion run over a 10-character note (yields zero chunks). -/
def noteRun1 : IngestOut :=
  ingest (fun s => s) extractC2 chunkC2 titleC2 fitC2
    [⟨"note.md", "short note"⟩] [] [] none false false

/-- Second ingestion run over the unchanged note. -/
def noteRun2 : IngestOut :=
  ingest (fun s => s) extractC2 chunkC2 titleC2 fitC2
    [⟨"note.md", "short note"⟩] noteRun1.store noteRun1.cacheFile
    noteRun1.bm25 false false

/-- C2 fails as stated: over a root holding one 10-character note (all its
chunks are discarded by the 50-character filter, so no hash-cache entry is
written), the second run classifies the note as NEW again and processes one
file, not zero — although the stored chunks are indeed identical. -/
theorem ingest_idempotence_counterexample :
    noteRun2.filesToProcess = 1 ∧ noteRun2.unchanged = 0 ∧
    noteRun2.store = noteRun1.store :=
  ⟨by decide, by decide, by decide⟩

/-- A markdown file whose single chunk passes the 50-character filter. -/
def docFile : SrcFile :=
  ⟨"doc.md", "This document paragraph easily exceeds the fifty character minimum."⟩

/-- First ingestion run over `docFile`. -/
def docRun1 : IngestOut :=
  ingest (fun s => s) extractC2 chunkC2 titleC2 fitC2 [docFile]
    [] [] none false false

/-- Second ingestion run over the unchanged `docFile`. -/
def docRun2 : IngestOut :=
  ingest (fun s => s) extractC2 chunkC2 titleC2 fitC2 [docFile]
    docRun1.store docRun1.cacheFile docRun1.bm25 false false

/-- Witness for C2: re-ingesting an unchanged one-file root processes zero
files and leaves the store identical. -/
theorem ingest_idempotent_witness :
    docRun2.filesToProcess = 0 ∧ docRun2.unchanged = 1 ∧
    docRun2.store = docRun1.store := by
  have h := ingest_idempotent (fun s => s) extractC2 chunkC2 titleC2 fitC2
    [docFile] [] [] none (by decide)
    (by
      intro f hf
      fin_cases hf
      exact ⟨docFile.bytes, rfl, by decide⟩)
  exact ⟨h.1, h.2.1, h.2.2⟩

/-- C4 (BM25 rebuild, modelled from the spec; the build code is absent
from src/, witnessed only by tests/test_hybrid_search.py and query.py's
`_load_bm25`): every non-dry-run ingestion run that reaches the write phase
persists the BM25 index rebuilt wholesale from the full current chunk
corpus — a single blob whose parallel arrays are exactly the corpus's chunk
ids, documents and metadatas, together with the scorer fitted on the
documents — independent of the previously persisted blob (no incremental
merge). -/
theorem bm25_rebuild (hashFn : String → String)
    (extract : SrcFile → Except String String)
    (chunkOf : String → SrcFile → List String)
    (titleOf : String → SrcFile → String)
    (fit : List String → List String → List ℚ)
    (files : List SrcFile) (store0 : List Chunk)
    (cacheFile0 : List (String × String)) (bm0 bm0' : Option BM25Blob)
    (tp : List (SrcFile × String))
    (hne : files.isEmpty = false)
    (htp : classifyToProcess hashFn cacheFile0 false files = tp)
    (htpne : tp ≠ []) :
    (ingest hashFn extract chunkOf titleOf fit files store0 cacheFile0 bm0
        false false).bm25
      = some (buildBM25 fit
          (ingest hashFn extract chunkOf titleOf fit files store0 cacheFile0
            bm0 false false).store) ∧
    (∀ s : List Chunk, (buildBM25 fit s).ids = s.map Chunk.id ∧
        (buildBM25 fit s).documents = s.map Chunk.doc ∧
        (buildBM25 fit s).metadatas = s.map Chunk.filePath ∧
        (buildBM25 fit s).getScores = fit (s.map Chunk.doc)) ∧
    (ingest hashFn extract chunkOf titleOf fit files store0 cacheFile0 bm0
        false false).bm25
      = (ingest hashFn extract chunkOf titleOf fit files store0 cacheFile0
          bm0' false false).bm25 := by
  rw [ingest_write_phase hashFn extract chunkOf titleOf fit files store0
      cacheFile0 bm0 tp hne htp htpne,
    ingest_write_phase hashFn extract chunkOf titleOf fit files store0
      cacheFile0 bm0' tp hne htp htpne]
  exact ⟨rfl, fun s => ⟨rfl, rfl, rfl, rfl⟩, rfl⟩

/-- Witness for C4: a one-file run persists the blob rebuilt from its final
store, regardless of the previous blob. -/
theorem bm25_rebuild_witness :
    (ingest (fun s => s) (fun f => Except.ok f.bytes)
        (fun c _ => [c]) (fun _ _ => "") (fun _ _ => [])
        [⟨"a.md", "x"⟩] [] [] none false false).bm25
      = some (buildBM25 (fun _ _ => [])
          (ingest (fun s => s) (fun f => Except.ok f.bytes)
            (fun c _ => [c]) (fun _ _ => "") (fun _ _ => [])
            [⟨"a.md", "x"⟩] [] [] none false false).store) :=
  (bm25_rebuild (fun s => s) (fun f => Except.ok f.bytes)
      (fun c _ => [c]) (fun _ _ => "") (fun _ _ => [])
      [⟨"a.md", "x"⟩] [] [] none none [(⟨"a.md", "x"⟩, "x")]
      rfl rfl (List.cons_ne_nil _ _)).1

/-- C5 (prune, modelled from the spec; `cmd_prune` is absent from
src/repo-search/query.py, called only by tests/test_prune.py): prune keeps
exactly the chunks whose owning file still exists on disk, removes exactly
those whose owning file no longer exists, and returns the count removed. -/
theorem prune_correct (store : List Chunk) (existsOnDisk : String → Bool) :
    (∀ c, c ∈ (cmd_prune store existsOnDisk).1 ↔
        c ∈ store ∧ existsOnDisk c.filePath = true) ∧
    (∀ c ∈ store, existsOnDisk c.filePath = false →
        c ∉ (cmd_prune store existsOnDisk).1) ∧
    (cmd_prune store existsOnDisk).2
        = (store.filter (fun c => ¬ existsOnDisk c.filePath)).length ∧
    (cmd_prune store existsOnDisk).2 + (cmd_prune store existsOnDisk).1.length
        = store.length := by
  have hmem : ∀ c, c ∈ (cmd_prune store existsOnDisk).1 ↔
      c ∈ store ∧ existsOnDisk c.filePath = true := by
    intro c
    simp [cmd_prune, List.mem_filter]
  refine ⟨hmem, ?_, rfl, ?_⟩
  · intro c hc hfalse hmemP
    have := (hmem c).mp hmemP
    rw [hfalse] at this
    exact Bool.noConfusion this.2
  · show (store.filter (fun c => ¬ existsOnDisk c.filePath)).length
        + (store.filter (fun c => existsOnDisk c.filePath)).length
        = store.length
    clear hmem
    induction store with
    | nil => rfl
    | cons c t ih =>
      by_cases h : existsOnDisk c.filePath = true
      · simp [List.filter_cons, h] at ih ⊢
        omega
      · have h' : existsOnDisk c.filePath = false := by
          cases hb : existsOnDisk c.filePath
          · rfl
          · exact absurd hb h
        simp [List.filter_cons, h'] at ih ⊢
        omega

/-- Witness for C5: deleting `b.md` from disk prunes exactly its chunk. -/
theorem prune_correct_witness :
    (cmd_prune [⟨"a.md::chunk_0", "d", "a.md"⟩, ⟨"b.md::chunk_0", "e", "b.md"⟩]
        (fun p => p = "a.md")).2 = 1 ∧
    (cmd_prune [⟨"a.md::chunk_0", "d", "a.md"⟩, ⟨"b.md::chunk_0", "e", "b.md"⟩]
        (fun p => p = "a.md")).1 = [⟨"a.md::chunk_0", "d", "a.md"⟩] :=
  ⟨((prune_correct
      [⟨"a.md::chunk_0", "d", "a.md"⟩, ⟨"b.md::chunk_0", "e", "b.md"⟩]
      (fun p => p = "a.md")).2.2.1).trans (by decide),
   by decide⟩

end RepoSearch
